import Mathlib

/-!
Verification of the FastFood order-queue and wait-time-estimation engine.

The definitions below are a shallow embedding of the JavaScript source:
  - src/backend/controllers/orderController.js (newOrder, confirmPickup,
    advanceQueue, waitEstimation)
  - src/backend/services/orderService.js (calculateWaitTime)
  - src/backend/models/Order.js, src/backend/models/Restaurant.js

Identifiers (Mongo ObjectIds in the source) are modelled as natural
numbers; timestamps are milliseconds as natural numbers; monetary values
are integers; fractional minutes are rationals.
-/

namespace FastFood

/-- Order lifecycle states, from ORDER_STATES in utils/constants.js. -/
inductive OState where
  | received
  | preparing
  | ready
  | completed
deriving DecidableEq, Repr

/-- One entry of a restaurant menu: dish reference, price in cents and
preparation time in whole minutes (Restaurant.js menu subdocument). -/
structure MenuItem where
  dish : Nat
  price : Nat
  preparationTime : Nat
deriving DecidableEq, Repr

/-- An order document (models/Order.js). -/
structure Order where
  customer : Nat
  restaurant : Nat
  dish : Nat
  amount : Nat
  price : Int
  state : OState
  createdAt : Nat
deriving DecidableEq, Repr

/-- A restaurant document restricted to the queue-relevant fields
(models/Restaurant.js): identifier, owner, menu, FIFO queue of order
identifiers and the lastPreparationStart timestamp. -/
structure Restaurant where
  rid : Nat
  owner : Nat
  menu : List MenuItem
  queue : List Nat
  lastPreparationStart : Option Nat
deriving DecidableEq, Repr

/-- The persistent state: the orders collection (keyed association list),
the restaurants collection and a counter supplying fresh order ids. -/
structure Sys where
  orders : List (Nat × Order)
  restaurants : List Restaurant
  nextOrderId : Nat
deriving DecidableEq, Repr

/-- Order.findById: first document in the collection with the given id. -/
def lookupOrder (store : List (Nat × Order)) (oid : Nat) : Option Order :=
  (store.find? (fun p => p.1 = oid)).map (·.2)

/-- Order.findById on a system state. -/
def findOrder (s : Sys) (oid : Nat) : Option Order :=
  lookupOrder s.orders oid

/-- In-place update of one order document (findOneAndUpdate by id). -/
def updateOrder (s : Sys) (oid : Nat) (o : Order) : Sys :=
  { s with orders := s.orders.map (fun p => if p.1 = oid then (oid, o) else p) }

/-- Restaurant.findOne with an owner filter. -/
def findRestByOwner (s : Sys) (u : Nat) : Option Restaurant :=
  s.restaurants.find? (fun r => r.owner = u)

/-- Restaurant.findById. -/
def findRest (s : Sys) (rid : Nat) : Option Restaurant :=
  s.restaurants.find? (fun r => r.rid = rid)

/-- Restaurant.findByIdAndUpdate: applies f to every restaurant document
whose id matches (a no-op when no document matches, as in Mongo). -/
def updateRest (s : Sys) (rid : Nat) (f : Restaurant → Restaurant) : Sys :=
  { s with restaurants := s.restaurants.map (fun r => if r.rid = rid then f r else r) }

/-!
### Order creation

newOrder (orderController.js lines 57-100), for a single item of the
request body, in transactional mode: the Order is saved with the
client-supplied price and state received, then the order id is pushed
onto the queue of the restaurant named by the request. A schema
validation failure (amount below 1, models/Order.js) aborts the
transaction, leaving the state unchanged, which the Option models: none
means the transaction aborted with no visible write. Note that the push
is Restaurant.findByIdAndUpdate, which silently matches no document when
the named restaurant does not exist.
-/
def placeOrder (s : Sys) (customer restId dish amount : Nat) (clientPrice : Int)
    (now : Nat) : Option Sys :=
  if amount < 1 then none
  else
    let oid := s.nextOrderId
    let o : Order := ⟨customer, restId, dish, amount, clientPrice, .received, now⟩
    let s1 : Sys := { s with orders := s.orders ++ [(oid, o)], nextOrderId := oid + 1 }
    some (updateRest s1 restId (fun r => { r with queue := r.queue ++ [oid] }))

/-!
### Queue advancement

advanceQueue (orderController.js lines 165-213) is split into the phase
that reads (restaurant by owner, target id, the order document, the
head check captured before any mutation) and the phase that performs the
conditional state update plus its side effects. Running both phases on
the same state gives the sequential behaviour; running the commit phase
on a state that changed after the observation models a concurrent
interleaving, with the findOneAndUpdate state filter deciding success.
-/

/-- Outcome of an advanceQueue call, mirroring the HTTP responses. -/
inductive AdvResult where
  | noRestaurant
  | queueEmpty
  | orderNotFound
  | conflict
  | ok
deriving DecidableEq, Repr

/-- What the observation phase of advanceQueue captured before mutating:
the restaurant id, the target order id, the state the target order was
seen in, and whether the target was the queue head at that moment. -/
structure Plan where
  restId : Nat
  target : Nat
  observed : OState
  isHead : Bool
deriving DecidableEq, Repr

/-- The read phase of advanceQueue: resolve the owner restaurant, pick
the target (explicit orderId or the queue head), load the order, check
it belongs to the restaurant, and capture the head test. -/
def advanceObserve (s : Sys) (ownerId : Nat) (orderId? : Option Nat) :
    Plan ⊕ AdvResult :=
  match findRestByOwner s ownerId with
  | none => .inr .noRestaurant
  | some r =>
    let target? := match orderId? with
      | some t => some t
      | none => r.queue.head?
    match target? with
    | none => .inr .queueEmpty
    | some t =>
      match findOrder s t with
      | none => .inr .orderNotFound
      | some o =>
        if o.restaurant ≠ r.rid then .inr .orderNotFound
        else .inl ⟨r.rid, t, o.state, r.queue.head? = some t⟩

/-- The write phase of advanceQueue: the conditional update
findOneAndUpdate with a state filter equal to the observed state, then
on success the lastPreparationStart write (received branch, head only)
or the queue pull (preparing branch). Observed terminal states fall
through both branches and answer ok without mutating anything. -/
def advanceCommit (s : Sys) (p : Plan) (now : Nat) : Sys × AdvResult :=
  match p.observed with
  | .received =>
    match findOrder s p.target with
    | some o =>
      if o.state = .received then
        let s1 := updateOrder s p.target { o with state := .preparing }
        let s2 := if p.isHead then
            updateRest s1 p.restId (fun r => { r with lastPreparationStart := some now })
          else s1
        (s2, .ok)
      else (s, .conflict)
    | none => (s, .conflict)
  | .preparing =>
    match findOrder s p.target with
    | some o =>
      if o.state = .preparing then
        let s1 := updateOrder s p.target { o with state := .ready }
        let s2 := updateRest s1 p.restId
          (fun r => { r with queue := r.queue.filter (fun x => x ≠ p.target) })
        (s2, .ok)
      else (s, .conflict)
    | none => (s, .conflict)
  | _ => (s, .ok)

/-- The sequential advanceQueue call: observe then commit on the same
state, with the request-level failures answered directly. -/
def advanceQueue (s : Sys) (ownerId : Nat) (orderId? : Option Nat) (now : Nat) :
    Sys × AdvResult :=
  match advanceObserve s ownerId orderId? with
  | .inr res => (s, res)
  | .inl p => advanceCommit s p now

/-- Outcome of confirmPickup, mirroring the HTTP responses. -/
inductive PickupResult where
  | notFound
  | notReady
  | ok
deriving DecidableEq, Repr

/-- confirmPickup (orderController.js lines 102-118): the customer marks
an order of theirs as completed, only from the ready state. -/
def confirmPickup (s : Sys) (customerId oid : Nat) : Sys × PickupResult :=
  match findOrder s oid with
  | none => (s, .notFound)
  | some o =>
    if o.customer ≠ customerId then (s, .notFound)
    else if o.state ≠ .ready then (s, .notReady)
    else (updateOrder s oid { o with state := .completed }, .ok)

/-!
### The two wait-time estimators
-/

/-- restaurant.menu.find on a dish reference: the first matching entry. -/
def menuFind (menu : List MenuItem) (d : Nat) : Option MenuItem :=
  menu.find? (fun m => m.dish = d)

/-- Elapsed minutes since a millisecond timestamp, the
(now - lastPreparationStart) / 60000 expression of both estimators. -/
def elapsedMinutes (now lp : Nat) : ℚ :=
  ((now : ℚ) - (lp : ℚ)) / 60000

/-- Mongoose populate of the queue path: unresolvable references are
dropped from the populated array. -/
def populateQueue (store : List (Nat × Order)) (queue : List Nat) :
    List (Nat × Order) :=
  queue.filterMap (fun oid => (lookupOrder store oid).map (fun o => (oid, o)))

/-- The loop of calculateWaitTime (orderService.js lines 21-38) over the
populated queue. A missing menu entry skips the whole loop body via
continue, leaving the index untouched and skipping the break test; the
entry iterated at index zero, when preparing with a lastPreparationStart
set, contributes its preparation total minus elapsed time clamped at
zero; the loop stops after adding the target order. -/
def serviceLoop (menu : List MenuItem) (lp? : Option Nat) (now target : Nat) :
    List (Nat × Order) → Nat → ℚ
  | [], _ => 0
  | (oid, o) :: rest, idx =>
    match menuFind menu o.dish with
    | none => serviceLoop menu lp? now target rest idx
    | some m =>
      let base : ℚ := (m.preparationTime : ℚ) * (o.amount : ℚ)
      let contrib : ℚ :=
        match lp? with
        | some lp =>
          if idx = 0 ∧ o.state = .preparing then max (base - elapsedMinutes now lp) 0
          else base
        | none => base
      contrib + (if oid = target then 0 else serviceLoop menu lp? now target rest (idx + 1))

/-- calculateWaitTime (orderService.js lines 10-41): resolve the order
and its restaurant, then run the loop from index zero over the populated
queue. none models the thrown not-found errors. -/
def calculateWaitTime (s : Sys) (target : Nat) (now : Nat) : Option ℚ :=
  match findOrder s target with
  | none => none
  | some o =>
    match findRest s o.restaurant with
    | none => none
    | some r =>
      some (serviceLoop r.menu r.lastPreparationStart now target
        (populateQueue s.orders r.queue) 0)

/-- The aggregation lookup of waitEstimation: unwind the menus of every
restaurant document matching the id and keep the entries for the dish;
the group stage then sums amount times preparationTime over the
resulting rows, an absent row counting zero via ifNull. -/
def menuPrepSum (menu : List MenuItem) (d : Nat) : ℚ :=
  ((menu.filter (fun m => m.dish = d)).map (fun m => (m.preparationTime : ℚ))).sum

/-- Rows contributed by the restaurants collection for one order of the
aggregation (match on restaurant id, unwind menu, match dish). -/
def prepRowsSum (rs : List Restaurant) (restId d : Nat) : ℚ :=
  ((rs.filter (fun r => r.rid = restId)).map (fun r => menuPrepSum r.menu d)).sum

/-- The aggregate total of waitEstimation (orderController.js lines
235-259): over every stored order whose id lies in the slice of the
queue up to the target, sum amount times the looked-up preparation time. -/
def aggregateTotal (s : Sys) (ahead : List Nat) : ℚ :=
  ((s.orders.filter (fun p => p.1 ∈ ahead)).map
    (fun p => (p.2.amount : ℚ) * prepRowsSum s.restaurants p.2.restaurant p.2.dish)).sum

/-- waitEstimation (orderController.js lines 215-271), before the final
display rounding: resolve order and restaurant, return zero when the
order is not in the queue, otherwise sum the slice through the target
and subtract the elapsed preparation of the head order, clamped at zero,
when the head is preparing and lastPreparationStart is set. -/
def waitEstimationTime (s : Sys) (target : Nat) (now : Nat) : Option ℚ :=
  match findOrder s target with
  | none => none
  | some o =>
    match findRest s o.restaurant with
    | none => none
    | some r =>
      match r.queue.findIdx? (fun oid => oid = target) with
      | none => some 0
      | some pos =>
        let ahead := r.queue.take (pos + 1)
        let total := aggregateTotal s ahead
        let adjusted : ℚ :=
          match r.queue.head? with
          | none => total
          | some fid =>
            match findOrder s fid, r.lastPreparationStart with
            | some fo, some lp =>
              if fo.state = .preparing then max (total - elapsedMinutes now lp) 0
              else total
            | _, _ => total
        some adjusted

/-!
### Reachability

The states of the system reachable from an initial state with no orders
and empty queues, through the exposed operations placeOrder,
advanceQueue and confirmPickup.
-/

/-- One successful API call. A failed placeOrder leaves the state
untouched, so only the committing run appears; advanceQueue and
confirmPickup always return the post-call state, mutated or not. -/
inductive Step : Sys → Sys → Prop where
  | place {s : Sys} (c rid d a : Nat) (pr : Int) (now : Nat) {s' : Sys}
      (h : placeOrder s c rid d a pr now = some s') : Step s s'
  | advance {s : Sys} (u : Nat) (oid? : Option Nat) (now : Nat) :
      Step s (advanceQueue s u oid? now).1
  | pickup {s : Sys} (c oid : Nat) : Step s (confirmPickup s c oid).1

/-- Reachability: the reflexive transitive closure of single calls. -/
def Reachable : Sys → Sys → Prop := Relation.ReflTransGen Step

/-- An initial state: no orders, every queue empty, restaurant ids
pairwise distinct (Mongo document ids are unique). -/
def Init (s : Sys) : Prop :=
  s.orders = [] ∧ (∀ r ∈ s.restaurants, r.queue = []) ∧
    (s.restaurants.map (·.rid)).Nodup

/-- The inductive invariant behind the queue-membership properties:
order ids are bounded by the fresh-id counter, restaurant ids stay
pairwise distinct, and every queued id resolves to an order of that
restaurant in state received or preparing. -/
def Inv (s : Sys) : Prop :=
  (∀ p ∈ s.orders, p.1 < s.nextOrderId) ∧
  (s.restaurants.map (·.rid)).Nodup ∧
  (∀ r ∈ s.restaurants, ∀ oid ∈ r.queue, ∃ o, findOrder s oid = some o ∧
    (o.state = OState.received ∨ o.state = OState.preparing) ∧ o.restaurant = r.rid)

/-!
### Store lemmas
-/

theorem lookupOrder_nil (x : Nat) : lookupOrder [] x = none := rfl

theorem lookupOrder_cons (p : Nat × Order) (ps : List (Nat × Order)) (x : Nat) :
    lookupOrder (p :: ps) x = if p.1 = x then some p.2 else lookupOrder ps x := by
  by_cases h : p.1 = x <;> simp [lookupOrder, List.find?_cons, h]

theorem lookupOrder_append_left (l1 l2 : List (Nat × Order)) (x : Nat) (o : Order)
    (h : lookupOrder l1 x = some o) : lookupOrder (l1 ++ l2) x = some o := by
  induction l1 with
  | nil => simp [lookupOrder_nil] at h
  | cons p ps ih =>
    rw [List.cons_append, lookupOrder_cons] at *
    by_cases hp : p.1 = x
    · simpa [hp] using h
    · rw [if_neg hp] at h ⊢
      exact ih h

theorem lookupOrder_append_fresh (l : List (Nat × Order)) (x : Nat) (o : Order)
    (h : ∀ p ∈ l, p.1 ≠ x) : lookupOrder (l ++ [(x, o)]) x = some o := by
  induction l with
  | nil => simp [lookupOrder_cons]
  | cons p ps ih =>
    rw [List.cons_append, lookupOrder_cons, if_neg (h p (by simp))]
    exact ih (fun q hq => h q (by simp [hq]))

theorem lookupOrder_update (store : List (Nat × Order)) (t : Nat) (o' : Order) (x : Nat) :
    lookupOrder (store.map (fun p => if p.1 = t then (t, o') else p)) x =
      if x = t then (lookupOrder store t).map (fun _ => o') else lookupOrder store x := by
  induction store with
  | nil => simp [lookupOrder_nil]
  | cons p ps ih =>
    by_cases hpt : p.1 = t
    · by_cases hxt : x = t
      · subst hxt
        simp [List.map_cons, lookupOrder_cons, hpt, ih]
      · have htx : t ≠ x := fun h => hxt h.symm
        have hpx : p.1 ≠ x := by rw [hpt]; exact htx
        simp [List.map_cons, lookupOrder_cons, hpt, hxt, htx, hpx, ih]
    · by_cases hpx : p.1 = x
      · have hxt : x ≠ t := fun h => hpt (by rw [hpx, h])
        simp [List.map_cons, lookupOrder_cons, hpt, hpx, hxt]
      · by_cases hxt : x = t
        · subst hxt
          simp [List.map_cons, lookupOrder_cons, hpt, hpx, ih]
        · simp [List.map_cons, lookupOrder_cons, hpt, hpx, hxt, ih]

theorem findOrder_updateOrder (s : Sys) (t : Nat) (o' : Order) (x : Nat) :
    findOrder (updateOrder s t o') x =
      if x = t then (findOrder s t).map (fun _ => o') else findOrder s x :=
  lookupOrder_update s.orders t o' x

theorem findOrder_updateRest (s : Sys) (rid : Nat) (f : Restaurant → Restaurant) (x : Nat) :
    findOrder (updateRest s rid f) x = findOrder s x := rfl

theorem restaurants_updateOrder (s : Sys) (t : Nat) (o' : Order) :
    (updateOrder s t o').restaurants = s.restaurants := rfl

theorem nextOrderId_updateOrder (s : Sys) (t : Nat) (o' : Order) :
    (updateOrder s t o').nextOrderId = s.nextOrderId := rfl

theorem nextOrderId_updateRest (s : Sys) (rid : Nat) (f : Restaurant → Restaurant) :
    (updateRest s rid f).nextOrderId = s.nextOrderId := rfl

theorem orders_keys_updateOrder (s : Sys) (t : Nat) (o' : Order) (n : Nat)
    (h : ∀ p ∈ s.orders, p.1 < n) : ∀ p ∈ (updateOrder s t o').orders, p.1 < n := by
  intro p hp
  rcases List.mem_map.mp hp with ⟨q, hq, hqe⟩
  have : p.1 = q.1 := by
    subst hqe
    by_cases hqt : q.1 = t <;> simp [hqt]
  rw [this]
  exact h q hq

theorem restaurants_updateRest (s : Sys) (rid : Nat) (f : Restaurant → Restaurant) :
    (updateRest s rid f).restaurants =
      s.restaurants.map (fun r => if r.rid = rid then f r else r) := rfl

theorem rid_map_updateRest (s : Sys) (rid : Nat) (f : Restaurant → Restaurant)
    (hf : ∀ r, (f r).rid = r.rid) :
    (updateRest s rid f).restaurants.map (·.rid) = s.restaurants.map (·.rid) := by
  rw [restaurants_updateRest, List.map_map]
  refine List.map_congr_left ?_
  intro r _
  by_cases h : r.rid = rid <;> simp [h, hf]

theorem nodup_rid_updateRest (s : Sys) (rid : Nat) (f : Restaurant → Restaurant)
    (hf : ∀ r, (f r).rid = r.rid) (h : (s.restaurants.map (·.rid)).Nodup) :
    ((updateRest s rid f).restaurants.map (·.rid)).Nodup := by
  rw [rid_map_updateRest s rid f hf]
  exact h

/-- What a successful observation phase guarantees about the captured
plan: the restaurant is the owner lookup, the target order exists,
belongs to it, was seen in the recorded state, and the head flag is the
head test on the queue as read; with no explicit orderId the target is
the queue head itself. -/
theorem advanceObserve_inl (s : Sys) (u : Nat) (oid? : Option Nat) (p : Plan)
    (h : advanceObserve s u oid? = Sum.inl p) :
    ∃ r o, findRestByOwner s u = some r ∧ r ∈ s.restaurants ∧ p.restId = r.rid ∧
      findOrder s p.target = some o ∧ o.state = p.observed ∧ o.restaurant = r.rid ∧
      p.isHead = decide (r.queue.head? = some p.target) ∧
      (oid? = none → r.queue.head? = some p.target) := by
  cases hr : findRestByOwner s u with
  | none => simp [advanceObserve, hr] at h
  | some r =>
    have hrm : r ∈ s.restaurants := List.mem_of_find?_eq_some hr
    cases hoid : oid? with
    | some t =>
      subst hoid
      cases ho : findOrder s t with
      | none => simp [advanceObserve, hr, ho] at h
      | some o =>
        by_cases hro : o.restaurant = r.rid
        · obtain ⟨prid, ptgt, pobs, phead⟩ := p
          simp [advanceObserve, hr, ho, hro] at h
          obtain ⟨h1, h2, h3, h4⟩ := h
          subst h1
          subst h2
          subst h3
          subst h4
          exact ⟨r, o, rfl, hrm, rfl, ho, rfl, hro, rfl, by intro hc; cases hc⟩
        · simp [advanceObserve, hr, ho, hro] at h
    | none =>
      subst hoid
      cases hq : r.queue.head? with
      | none => simp [advanceObserve, hr, hq] at h
      | some t =>
        cases ho : findOrder s t with
        | none => simp [advanceObserve, hr, hq, ho] at h
        | some o =>
          by_cases hro : o.restaurant = r.rid
          · obtain ⟨prid, ptgt, pobs, phead⟩ := p
            simp [advanceObserve, hr, hq, ho, hro] at h
            obtain ⟨h1, h2, h3, h4⟩ := h
            subst h1
            subst h2
            subst h3
            subst h4
            exact ⟨r, o, rfl, hrm, rfl, ho, rfl, hro, by simp [hq], fun _ => hq⟩
          · simp [advanceObserve, hr, hq, ho, hro] at h

/-- When the observation phase answers early, no state was read into a
plan and the full call leaves the state untouched. -/
theorem advanceQueue_of_inr (s : Sys) (u : Nat) (oid? : Option Nat) (now : Nat)
    (res : AdvResult) (h : advanceObserve s u oid? = Sum.inr res) :
    advanceQueue s u oid? now = (s, res) := by
  unfold advanceQueue
  rw [h]

theorem inv_init (s : Sys) (h : Init s) : Inv s := by
  obtain ⟨ho, hq, hn⟩ := h
  refine ⟨?_, hn, ?_⟩
  · intro p hp
    rw [ho] at hp
    cases hp
  · intro r hr oid hoid
    rw [hq r hr] at hoid
    cases hoid

theorem inv_place (s s' : Sys) (c rid d a : Nat) (pr : Int) (now : Nat)
    (hinv : Inv s) (h : placeOrder s c rid d a pr now = some s') : Inv s' := by
  obtain ⟨hfresh, hnodup, hqueue⟩ := hinv
  unfold placeOrder at h
  by_cases ha : a < 1
  · rw [if_pos ha] at h; cases h
  · rw [if_neg ha] at h
    injection h with h
    subst h
    refine ⟨?_, ?_, ?_⟩
    · intro p hp
      rcases List.mem_append.mp hp with hp | hp
      · exact Nat.lt_succ_of_lt (hfresh p hp)
      · rcases List.mem_singleton.mp hp with rfl
        exact Nat.lt_succ_self _
    · exact nodup_rid_updateRest _ _ _ (fun r => rfl) hnodup
    · intro r' hr' oid hoid
      rw [restaurants_updateRest] at hr'
      rcases List.mem_map.mp hr' with ⟨r, hr, hre⟩
      have hq' : r'.queue = (if r.rid = rid then r.queue ++ [s.nextOrderId] else r.queue) ∧
          r'.rid = r.rid := by
        subst hre
        by_cases hb : r.rid = rid <;> simp [hb]
      obtain ⟨hq1, hq2⟩ := hq'
      rw [hq1] at hoid
      have hold : ∀ x ∈ r.queue, ∃ o, findOrder s x = some o ∧
          (o.state = OState.received ∨ o.state = OState.preparing) ∧ o.restaurant = r.rid :=
        hqueue r hr
      have step : ∀ x, x ∈ r.queue →
          ∃ o, lookupOrder (s.orders ++ [(s.nextOrderId,
              ⟨c, rid, d, a, pr, OState.received, now⟩)]) x = some o ∧
            (o.state = OState.received ∨ o.state = OState.preparing) ∧ o.restaurant = r.rid := by
        intro x hx
        obtain ⟨o, ho, hst, hrest⟩ := hold x hx
        exact ⟨o, lookupOrder_append_left _ _ _ _ ho, hst, hrest⟩
      by_cases hb : r.rid = rid
      · rw [if_pos hb] at hoid
        rcases List.mem_append.mp hoid with hx | hx
        · rw [hq2]
          exact step oid hx
        · rcases List.mem_singleton.mp hx with rfl
          refine ⟨⟨c, rid, d, a, pr, OState.received, now⟩, ?_, Or.inl rfl, by rw [hq2, hb]⟩
          exact lookupOrder_append_fresh _ _ _
            (fun p hp => Nat.ne_of_lt (hfresh p hp))
      · rw [if_neg hb] at hoid
        rw [hq2]
        exact step oid hoid

theorem inv_commit (s : Sys) (p : Plan) (now : Nat) (o₀ : Order)
    (hinv : Inv s) (ho : findOrder s p.target = some o₀)
    (hst : o₀.state = p.observed) (hrest : o₀.restaurant = p.restId) :
    Inv (advanceCommit s p now).1 := by
  obtain ⟨hfresh, hnodup, hqueue⟩ := hinv
  cases hobs : p.observed with
  | received =>
    have hs : o₀.state = OState.received := by rw [hst, hobs]
    have heval : (advanceCommit s p now).1 =
        (if p.isHead then
          updateRest (updateOrder s p.target { o₀ with state := .preparing }) p.restId
            (fun r => { r with lastPreparationStart := some now })
        else updateOrder s p.target { o₀ with state := .preparing }) := by
      simp [advanceCommit, hobs, ho, hs]
    rw [heval]
    have core : Inv (updateOrder s p.target { o₀ with state := .preparing }) := by
      refine ⟨orders_keys_updateOrder _ _ _ _ hfresh, hnodup, ?_⟩
      intro r hr oid hoid
      rw [restaurants_updateOrder] at hr
      obtain ⟨o, hlo, hos, hor⟩ := hqueue r hr oid hoid
      rw [findOrder_updateOrder]
      by_cases he : oid = p.target
      · subst he
        rw [hlo] at ho
        injection ho with ho
        subst ho
        refine ⟨{ o with state := .preparing }, ?_, Or.inr rfl, hor⟩
        rw [if_pos rfl, hlo]
        rfl
      · rw [if_neg he]
        exact ⟨o, hlo, hos, hor⟩
    by_cases hh : p.isHead
    · rw [if_pos hh]
      obtain ⟨f1, f2, f3⟩ := core
      refine ⟨f1, ?_, ?_⟩
      · exact nodup_rid_updateRest _ _ _ (fun r => rfl) f2
      · intro r' hr' oid hoid
        rw [restaurants_updateRest] at hr'
        rcases List.mem_map.mp hr' with ⟨r, hr, hre⟩
        have hsame : r'.queue = r.queue ∧ r'.rid = r.rid := by
          subst hre
          by_cases hb : r.rid = p.restId <;> simp [hb]
        rw [hsame.1] at hoid
        rw [hsame.2]
        obtain ⟨o, hlo, hos, hor⟩ := f3 r hr oid hoid
        exact ⟨o, hlo, hos, hor⟩
    · rw [if_neg hh]
      exact core
  | preparing =>
    have hs : o₀.state = OState.preparing := by rw [hst, hobs]
    have heval : (advanceCommit s p now).1 =
        updateRest (updateOrder s p.target { o₀ with state := .ready }) p.restId
          (fun r => { r with queue := r.queue.filter (fun x => x ≠ p.target) }) := by
      simp [advanceCommit, hobs, ho, hs]
    rw [heval]
    refine ⟨?_, ?_, ?_⟩
    · exact orders_keys_updateOrder _ _ _ _ hfresh
    · exact nodup_rid_updateRest _ _ _ (fun r => rfl) hnodup
    · intro r' hr' oid hoid
      rw [restaurants_updateRest] at hr'
      rcases List.mem_map.mp hr' with ⟨r, hr, hre⟩
      have hmem : oid ∈ r.queue ∧ oid ≠ p.target ∧ r'.rid = r.rid := by
        subst hre
        by_cases hb : r.rid = p.restId
        · rw [if_pos hb] at hoid
          rw [if_pos hb]
          rcases List.mem_filter.mp hoid with ⟨h1, h2⟩
          refine ⟨h1, ?_, rfl⟩
          simpa using h2
        · rw [if_neg hb] at hoid
          rw [if_neg hb]
          refine ⟨hoid, ?_, rfl⟩
          intro he
          subst he
          obtain ⟨o, hlo, hos, hor⟩ := hqueue r hr p.target hoid
          rw [hlo] at ho
          injection ho with ho
          subst ho
          rw [← hor, hrest] at hb
          exact hb rfl
      obtain ⟨hmq, hne, hrid⟩ := hmem
      obtain ⟨o, hlo, hos, hor⟩ := hqueue r hr oid hmq
      rw [findOrder_updateRest, findOrder_updateOrder, if_neg hne]
      rw [hrid]
      exact ⟨o, hlo, hos, hor⟩
  | ready =>
    have heval : (advanceCommit s p now).1 = s := by
      simp [advanceCommit, hobs]
    rw [heval]
    exact ⟨hfresh, hnodup, hqueue⟩
  | completed =>
    have heval : (advanceCommit s p now).1 = s := by
      simp [advanceCommit, hobs]
    rw [heval]
    exact ⟨hfresh, hnodup, hqueue⟩

theorem inv_advance (s : Sys) (u : Nat) (oid? : Option Nat) (now : Nat)
    (hinv : Inv s) : Inv (advanceQueue s u oid? now).1 := by
  cases hobs : advanceObserve s u oid? with
  | inr res =>
    rw [advanceQueue_of_inr s u oid? now res hobs]
    exact hinv
  | inl p =>
    obtain ⟨r, o, _, _, hrid, ho, hst, hor, _, _⟩ := advanceObserve_inl s u oid? p hobs
    have : advanceQueue s u oid? now = advanceCommit s p now := by
      unfold advanceQueue
      rw [hobs]
    rw [this]
    exact inv_commit s p now o hinv ho hst (by rw [hor, hrid])

theorem inv_pickup (s : Sys) (c oid : Nat) (hinv : Inv s) :
    Inv (confirmPickup s c oid).1 := by
  obtain ⟨hfresh, hnodup, hqueue⟩ := hinv
  cases ho : findOrder s oid with
  | none =>
    have : (confirmPickup s c oid).1 = s := by unfold confirmPickup; rw [ho]
    rw [this]
    exact ⟨hfresh, hnodup, hqueue⟩
  | some o =>
    by_cases hc : o.customer = c
    · by_cases hrdy : o.state = OState.ready
      · have : (confirmPickup s c oid).1 = updateOrder s oid { o with state := .completed } := by
          unfold confirmPickup
          rw [ho]
          simp [hc, hrdy]
        rw [this]
        refine ⟨orders_keys_updateOrder _ _ _ _ hfresh, hnodup, ?_⟩
        intro r hr x hx
        rw [restaurants_updateOrder] at hr
        obtain ⟨o', hlo, hos, hor⟩ := hqueue r hr x hx
        have hne : x ≠ oid := by
          intro he
          subst he
          rw [hlo] at ho
          injection ho with ho
          subst ho
          rcases hos with h1 | h1 <;> rw [h1] at hrdy <;> cases hrdy
        rw [findOrder_updateOrder, if_neg hne]
        exact ⟨o', hlo, hos, hor⟩
      · have : (confirmPickup s c oid).1 = s := by
          unfold confirmPickup
          rw [ho]
          simp [hc, hrdy]
        rw [this]
        exact ⟨hfresh, hnodup, hqueue⟩
    · have : (confirmPickup s c oid).1 = s := by
        unfold confirmPickup
        rw [ho]
        simp [hc]
      rw [this]
      exact ⟨hfresh, hnodup, hqueue⟩

theorem inv_step (s s' : Sys) (hinv : Inv s) (h : Step s s') : Inv s' := by
  cases h with
  | place c rid d a pr now hp => exact inv_place _ _ c rid d a pr now hinv hp
  | advance u oid? now => exact inv_advance s u oid? now hinv
  | pickup c oid => exact inv_pickup s c oid hinv

theorem inv_reachable (s0 s : Sys) (h0 : Init s0) (h : Reachable s0 s) : Inv s := by
  induction h with
  | refl => exact inv_init s0 h0
  | tail _ hstep ih => exact inv_step _ _ ih hstep

theorem head?_append_left {α : Type} (l l2 : List α) (x : α) (h : l.head? = some x) :
    (l ++ l2).head? = some x := by
  cases l with
  | nil => cases h
  | cons a as => simpa using h

theorem mem_restaurants_eq_of_rid (s : Sys) (hnodup : (s.restaurants.map (·.rid)).Nodup)
    (r1 r2 : Restaurant) (h1 : r1 ∈ s.restaurants) (h2 : r2 ∈ s.restaurants)
    (h : r1.rid = r2.rid) : r1 = r2 :=
  List.inj_on_of_nodup_map hnodup h1 h2 h

/-- C7: on every reachable state, every queued order id resolves to an
order whose state is neither ready nor completed. -/
theorem reachable_queue_not_ready_completed (s0 s : Sys) (h0 : Init s0)
    (h : Reachable s0 s) :
    ∀ r ∈ s.restaurants, ∀ oid ∈ r.queue, ∃ o, findOrder s oid = some o ∧
      o.state ≠ OState.ready ∧ o.state ≠ OState.completed := by
  have hinv := inv_reachable s0 s h0 h
  intro r hr oid hoid
  obtain ⟨o, hlo, hos, _⟩ := hinv.2.2 r hr oid hoid
  refine ⟨o, hlo, ?_, ?_⟩ <;>
    rcases hos with h1 | h1 <;> rw [h1] <;> intro hc <;> cases hc

/-- A base state: one restaurant with an empty queue and no orders. -/
def baseSys : Sys := ⟨[], [⟨5, 1, [⟨7, 100, 10⟩], [], none⟩], 0⟩

/-- baseSys after one placed order. -/
def sysA : Sys :=
  ⟨[(0, ⟨2, 5, 7, 1, 100, .received, 0⟩)], [⟨5, 1, [⟨7, 100, 10⟩], [0], none⟩], 1⟩

/-- sysA after the owner advanced the head into preparation. -/
def sysB : Sys :=
  ⟨[(0, ⟨2, 5, 7, 1, 100, .preparing, 0⟩)], [⟨5, 1, [⟨7, 100, 10⟩], [0], some 1000⟩], 1⟩

theorem reachable_base_sysB : Reachable baseSys sysB := by
  have h1 : Step baseSys sysA := Step.place 2 5 7 1 100 0 (by decide)
  have h2 : Step sysA sysB := by
    have := Step.advance (s := sysA) 1 none 1000
    rwa [show (advanceQueue sysA 1 none 1000).1 = sysB by decide] at this
  exact Relation.ReflTransGen.tail (Relation.ReflTransGen.single h1) h2

theorem reachable_queue_not_ready_completed_witness :
    ∃ o, findOrder sysB 0 = some o ∧
      o.state ≠ OState.ready ∧ o.state ≠ OState.completed :=
  reachable_queue_not_ready_completed baseSys sysB ⟨rfl, by decide, by decide⟩
    reachable_base_sysB
    ⟨5, 1, [⟨7, 100, 10⟩], [0], some 1000⟩ (by decide) 0 (by decide)

/-- Two orders placed: queue [0, 1], both received. -/
def sysTwo : Sys :=
  ⟨[(0, ⟨2, 5, 7, 1, 100, .received, 0⟩), (1, ⟨2, 5, 7, 1, 100, .received, 0⟩)],
   [⟨5, 1, [⟨7, 100, 10⟩], [0, 1], none⟩], 2⟩

/-- sysTwo after advancing the head: order 0 preparing. -/
def sysTwoB : Sys :=
  ⟨[(0, ⟨2, 5, 7, 1, 100, .preparing, 0⟩), (1, ⟨2, 5, 7, 1, 100, .received, 0⟩)],
   [⟨5, 1, [⟨7, 100, 10⟩], [0, 1], some 1000⟩], 2⟩

/-- sysTwoB after advancing order 1 explicitly: both orders preparing
while order 1 sits at queue index 1. -/
def sysTwoC : Sys :=
  ⟨[(0, ⟨2, 5, 7, 1, 100, .preparing, 0⟩), (1, ⟨2, 5, 7, 1, 100, .preparing, 0⟩)],
   [⟨5, 1, [⟨7, 100, 10⟩], [0, 1], some 1000⟩], 2⟩

theorem reachable_base_sysTwoC : Reachable baseSys sysTwoC := by
  have h1 : Step baseSys sysA := Step.place 2 5 7 1 100 0 (by decide)
  have h2 : Step sysA sysTwo := Step.place 2 5 7 1 100 0 (by decide)
  have h3 : Step sysTwo sysTwoB := by
    have := Step.advance (s := sysTwo) 1 none 1000
    rwa [show (advanceQueue sysTwo 1 none 1000).1 = sysTwoB by decide] at this
  have h4 : Step sysTwoB sysTwoC := by
    have := Step.advance (s := sysTwoB) 1 (some 1) 2000
    rwa [show (advanceQueue sysTwoB 1 (some 1) 2000).1 = sysTwoC by decide] at this
  exact Relation.ReflTransGen.tail
    (Relation.ReflTransGen.tail
      (Relation.ReflTransGen.tail (Relation.ReflTransGen.single h1) h2) h3) h4

/-- C1 counterexample: from an empty queue, place two orders, advance the
head, then advance order 1 by explicit orderId. The reached state has a
restaurant whose queue is [0, 1] with both referenced orders preparing,
so a preparing order sits at index 1 and more than one order of the
non-empty queue is preparing: the claimed invariant fails, and the
explicit non-head advanceQueue call is what broke it. -/
theorem advanceQueue_nonhead_breaks_single_preparing_invariant :
    Init baseSys ∧ Reachable baseSys sysTwoC ∧
    (∃ r, r ∈ sysTwoC.restaurants ∧ r.queue = [0, 1] ∧
      (∃ o0, findOrder sysTwoC 0 = some o0 ∧ o0.state = OState.preparing) ∧
      (∃ o1, findOrder sysTwoC 1 = some o1 ∧ o1.state = OState.preparing)) := by
  refine ⟨⟨rfl, by decide, by decide⟩, reachable_base_sysTwoC, ?_⟩
  exact ⟨⟨5, 1, [⟨7, 100, 10⟩], [0, 1], some 1000⟩, by decide, by decide,
    ⟨⟨2, 5, 7, 1, 100, .preparing, 0⟩, by decide, rfl⟩,
    ⟨⟨2, 5, 7, 1, 100, .preparing, 0⟩, by decide, rfl⟩⟩

/-!
### Head-only advancement

The restriction of the step relation under which every advanceQueue call
omits the explicit orderId, so only the queue head is ever advanced.
-/
inductive HeadStep : Sys → Sys → Prop where
  | place {s : Sys} (c rid d a : Nat) (pr : Int) (now : Nat) {s' : Sys}
      (h : placeOrder s c rid d a pr now = some s') : HeadStep s s'
  | advance {s : Sys} (u : Nat) (now : Nat) : HeadStep s (advanceQueue s u none now).1
  | pickup {s : Sys} (c oid : Nat) : HeadStep s (confirmPickup s c oid).1

def HeadReachable : Sys → Sys → Prop := Relation.ReflTransGen HeadStep

theorem headStep_step (s s' : Sys) (h : HeadStep s s') : Step s s' := by
  cases h with
  | place c rid d a pr now hp => exact Step.place c rid d a pr now hp
  | advance u now => exact Step.advance u none now
  | pickup c oid => exact Step.pickup c oid

/-- The strengthened invariant for head-only advancement: on top of Inv,
any queued order seen in preparing state is the queue head. -/
def InvHead (s : Sys) : Prop :=
  Inv s ∧ ∀ r ∈ s.restaurants, ∀ oid ∈ r.queue, ∀ o, findOrder s oid = some o →
    o.state = OState.preparing → r.queue.head? = some oid

theorem invHead_place (s s' : Sys) (c rid d a : Nat) (pr : Int) (now : Nat)
    (hinv : InvHead s) (h : placeOrder s c rid d a pr now = some s') : InvHead s' := by
  obtain ⟨hI, hHead⟩ := hinv
  refine ⟨inv_place s s' c rid d a pr now hI h, ?_⟩
  obtain ⟨hfresh, hnodup, hqueue⟩ := hI
  unfold placeOrder at h
  by_cases ha : a < 1
  · rw [if_pos ha] at h; cases h
  · rw [if_neg ha] at h
    injection h with h
    subst h
    intro r' hr' oid hoid o' ho' hprep
    rw [restaurants_updateRest] at hr'
    rcases List.mem_map.mp hr' with ⟨r, hr, hre⟩
    rw [findOrder_updateRest] at ho'
    by_cases hb : r.rid = rid
    · have hq : r'.queue = r.queue ++ [s.nextOrderId] := by
        subst hre; simp [hb]
      rw [hq] at hoid ⊢
      rcases List.mem_append.mp hoid with hx | hx
      · obtain ⟨o, hlo, hos, hor⟩ := hqueue r hr oid hx
        have hl2 : lookupOrder (s.orders ++
            [(s.nextOrderId, ⟨c, rid, d, a, pr, OState.received, now⟩)]) oid = some o :=
          lookupOrder_append_left _ _ _ _ hlo
        rw [show findOrder { s with
            orders := s.orders ++ [(s.nextOrderId, ⟨c, rid, d, a, pr, OState.received, now⟩)],
            nextOrderId := s.nextOrderId + 1 } oid = lookupOrder (s.orders ++
            [(s.nextOrderId, ⟨c, rid, d, a, pr, OState.received, now⟩)]) oid from rfl,
          hl2] at ho'
        injection ho' with ho'
        subst ho'
        exact head?_append_left _ _ _ (hHead r hr oid hx o hlo hprep)
      · rcases List.mem_singleton.mp hx with rfl
        have hl2 : lookupOrder (s.orders ++
            [(s.nextOrderId, ⟨c, rid, d, a, pr, OState.received, now⟩)]) s.nextOrderId =
            some ⟨c, rid, d, a, pr, OState.received, now⟩ :=
          lookupOrder_append_fresh _ _ _ (fun p hp => Nat.ne_of_lt (hfresh p hp))
        rw [show findOrder { s with
            orders := s.orders ++ [(s.nextOrderId, ⟨c, rid, d, a, pr, OState.received, now⟩)],
            nextOrderId := s.nextOrderId + 1 } s.nextOrderId = lookupOrder (s.orders ++
            [(s.nextOrderId, ⟨c, rid, d, a, pr, OState.received, now⟩)]) s.nextOrderId from rfl,
          hl2] at ho'
        injection ho' with ho'
        subst ho'
        cases hprep
    · have hq : r' = r := by
        subst hre; simp [hb]
      rw [hq] at hoid ⊢
      obtain ⟨o, hlo, hos, hor⟩ := hqueue r hr oid hoid
      have hl2 : lookupOrder (s.orders ++
          [(s.nextOrderId, ⟨c, rid, d, a, pr, OState.received, now⟩)]) oid = some o :=
        lookupOrder_append_left _ _ _ _ hlo
      rw [show findOrder { s with
          orders := s.orders ++ [(s.nextOrderId, ⟨c, rid, d, a, pr, OState.received, now⟩)],
          nextOrderId := s.nextOrderId + 1 } oid = lookupOrder (s.orders ++
          [(s.nextOrderId, ⟨c, rid, d, a, pr, OState.received, now⟩)]) oid from rfl,
        hl2] at ho'
      injection ho' with ho'
      subst ho'
      exact hHead r hr oid hoid o hlo hprep

theorem invHead_advance (s : Sys) (u : Nat) (now : Nat) (hinv : InvHead s) :
    InvHead (advanceQueue s u none now).1 := by
  obtain ⟨hI, hHead⟩ := hinv
  refine ⟨inv_advance s u none now hI, ?_⟩
  cases hobs : advanceObserve s u none with
  | inr res =>
    rw [advanceQueue_of_inr s u none now res hobs]
    exact hHead
  | inl p =>
    obtain ⟨r₀, o₀, hr₀, hr₀m, hrid, ho₀, hst₀, hor₀, hisHead, hhd⟩ :=
      advanceObserve_inl s u none p hobs
    have hhead : r₀.queue.head? = some p.target := hhd rfl
    have hisT : p.isHead = true := by rw [hisHead]; simp [hhead]
    have heq : advanceQueue s u none now = advanceCommit s p now := by
      unfold advanceQueue; rw [hobs]
    rw [heq]
    obtain ⟨hfresh, hnodup, hqueue⟩ := hI
    cases hobs2 : p.observed with
    | received =>
      have hs : o₀.state = OState.received := by rw [hst₀, hobs2]
      have heval : (advanceCommit s p now).1 =
          updateRest (updateOrder s p.target { o₀ with state := .preparing }) p.restId
            (fun r => { r with lastPreparationStart := some now }) := by
        simp [advanceCommit, hobs2, ho₀, hs, hisT]
      rw [heval]
      intro r' hr' oid hoid o' ho' hprep
      rw [restaurants_updateRest] at hr'
      rcases List.mem_map.mp hr' with ⟨r, hr, hre⟩
      have hqr : r'.queue = r.queue ∧ r'.rid = r.rid := by
        subst hre
        by_cases hb : r.rid = p.restId <;> simp [hb]
      rw [hqr.1] at hoid ⊢
      rw [findOrder_updateRest, findOrder_updateOrder] at ho'
      by_cases he : oid = p.target
      · subst he
        obtain ⟨o, hlo, hos, hor⟩ := hqueue r hr _ hoid
        rw [hlo] at ho₀
        injection ho₀ with ho₀
        have hre2 : r.rid = r₀.rid := by
          rw [← hor, ho₀, hor₀]
        rw [mem_restaurants_eq_of_rid s hnodup r r₀ hr hr₀m hre2]
        exact hhead
      · rw [if_neg he] at ho'
        exact hHead r hr oid hoid o' ho' hprep
    | preparing =>
      have hs : o₀.state = OState.preparing := by rw [hst₀, hobs2]
      have heval : (advanceCommit s p now).1 =
          updateRest (updateOrder s p.target { o₀ with state := .ready }) p.restId
            (fun r => { r with queue := r.queue.filter (fun x => x ≠ p.target) }) := by
        simp [advanceCommit, hobs2, ho₀, hs]
      rw [heval]
      intro r' hr' oid hoid o' ho' hprep
      rw [restaurants_updateRest] at hr'
      rcases List.mem_map.mp hr' with ⟨r, hr, hre⟩
      rw [findOrder_updateRest, findOrder_updateOrder] at ho'
      by_cases hb : r.rid = p.restId
      · have hq : r'.queue = r.queue.filter (fun x => x ≠ p.target) := by
          subst hre; simp [hb]
        rw [hq] at hoid
        rcases List.mem_filter.mp hoid with ⟨hx, hne0⟩
        have hne : oid ≠ p.target := by simpa using hne0
        rw [if_neg hne] at ho'
        have hr0eq : r = r₀ := by
          refine mem_restaurants_eq_of_rid s hnodup r r₀ hr hr₀m ?_
          rw [hb, hrid]
        have := hHead r hr oid hx o' ho' hprep
        rw [hr0eq, hhead] at this
        injection this with this
        exact absurd this.symm hne
      · have hq : r' = r := by
          subst hre; simp [hb]
        rw [hq] at hoid ⊢
        have hne : oid ≠ p.target := by
          intro he
          subst he
          obtain ⟨o, hlo, hos, hor⟩ := hqueue r hr _ hoid
          rw [hlo] at ho₀
          injection ho₀ with ho₀
          rw [← hor, ho₀, hor₀, ← hrid] at hb
          exact hb rfl
        rw [if_neg hne] at ho'
        exact hHead r hr oid hoid o' ho' hprep
    | ready =>
      have heval : (advanceCommit s p now).1 = s := by
        simp [advanceCommit, hobs2]
      rw [heval]
      exact hHead
    | completed =>
      have heval : (advanceCommit s p now).1 = s := by
        simp [advanceCommit, hobs2]
      rw [heval]
      exact hHead

theorem invHead_pickup (s : Sys) (c oid : Nat) (hinv : InvHead s) :
    InvHead (confirmPickup s c oid).1 := by
  obtain ⟨hI, hHead⟩ := hinv
  refine ⟨inv_pickup s c oid hI, ?_⟩
  obtain ⟨hfresh, hnodup, hqueue⟩ := hI
  cases ho : findOrder s oid with
  | none =>
    have heval : (confirmPickup s c oid).1 = s := by unfold confirmPickup; rw [ho]
    rw [heval]
    exact hHead
  | some o =>
    by_cases hc : o.customer = c
    · by_cases hrdy : o.state = OState.ready
      · have heval : (confirmPickup s c oid).1 =
            updateOrder s oid { o with state := .completed } := by
          unfold confirmPickup
          rw [ho]
          simp [hc, hrdy]
        rw [heval]
        intro r hr x hx o' ho' hprep
        rw [restaurants_updateOrder] at hr
        rw [findOrder_updateOrder] at ho'
        by_cases he : x = oid
        · subst he
          rw [if_pos rfl, ho] at ho'
          injection ho' with ho'
          rw [← ho'] at hprep
          cases hprep
        · rw [if_neg he] at ho'
          exact hHead r hr x hx o' ho' hprep
      · have heval : (confirmPickup s c oid).1 = s := by
          unfold confirmPickup
          rw [ho]
          simp [hc, hrdy]
        rw [heval]
        exact hHead
    · have heval : (confirmPickup s c oid).1 = s := by
        unfold confirmPickup
        rw [ho]
        simp [hc]
      rw [heval]
      exact hHead

theorem invHead_init (s : Sys) (h : Init s) : InvHead s := by
  refine ⟨inv_init s h, ?_⟩
  intro r hr oid hoid
  rw [h.2.1 r hr] at hoid
  cases hoid

theorem invHead_reachable (s0 s : Sys) (h0 : Init s0) (h : HeadReachable s0 s) :
    InvHead s := by
  induction h with
  | refl => exact invHead_init s0 h0
  | tail _ hstep ih =>
    cases hstep with
    | place c rid d a pr now hp => exact invHead_place _ _ c rid d a pr now ih hp
    | advance u now => exact invHead_advance _ u now ih
    | pickup c oid => exact invHead_pickup _ c oid ih

/-- C1 amended: when every advancement call targets only the queue head
(no explicit orderId), any queued order in preparing state is the queue
head, so a non-empty queue holds at most one preparing order and it is
the head. -/
theorem headOnly_preparing_is_head (s0 s : Sys) (h0 : Init s0)
    (h : HeadReachable s0 s) :
    ∀ r ∈ s.restaurants, ∀ oid ∈ r.queue, ∀ o, findOrder s oid = some o →
      o.state = OState.preparing → r.queue.head? = some oid := by
  exact (invHead_reachable s0 s h0 h).2

theorem headOnly_preparing_is_head_witness :
    (⟨5, 1, [⟨7, 100, 10⟩], [0], some 1000⟩ : Restaurant).queue.head? = some 0 := by
  have hreach : HeadReachable baseSys sysB := by
    have h1 : HeadStep baseSys sysA := HeadStep.place 2 5 7 1 100 0 (by decide)
    have h2 : HeadStep sysA sysB := by
      have := HeadStep.advance (s := sysA) 1 1000
      rwa [show (advanceQueue sysA 1 none 1000).1 = sysB by decide] at this
    exact Relation.ReflTransGen.tail (Relation.ReflTransGen.single h1) h2
  exact headOnly_preparing_is_head baseSys sysB ⟨rfl, by decide, by decide⟩ hreach
    ⟨5, 1, [⟨7, 100, 10⟩], [0], some 1000⟩ (by decide) 0 (by decide)
    ⟨2, 5, 7, 1, 100, .preparing, 0⟩ (by decide) rfl

theorem advanceCommit_conflict (t : Sys) (q : Plan) (n : Nat)
    (hobs : q.observed = OState.received ∨ q.observed = OState.preparing)
    (hchg : ∀ o, findOrder t q.target = some o → o.state ≠ q.observed) :
    advanceCommit t q n = (t, AdvResult.conflict) := by
  rcases hobs with h | h
  · cases ho : findOrder t q.target with
    | none => simp [advanceCommit, h, ho]
    | some o =>
      have hne := hchg o ho
      rw [h] at hne
      simp [advanceCommit, h, ho, hne]
  · cases ho : findOrder t q.target with
    | none => simp [advanceCommit, h, ho]
    | some o =>
      have hne := hchg o ho
      rw [h] at hne
      simp [advanceCommit, h, ho, hne]

/-- C3: the conditional update of advanceQueue. If the stored state no
longer matches the state the call branched on, the commit answers
Conflict and returns the state unchanged; two commits that both observed
received on the same order yield exactly one received-to-preparing
transition, the second answering Conflict with no further change. -/
theorem advance_conflict_on_concurrent_change :
    (∀ (t : Sys) (q : Plan) (n : Nat),
      (q.observed = OState.received ∨ q.observed = OState.preparing) →
      (∀ o, findOrder t q.target = some o → o.state ≠ q.observed) →
      advanceCommit t q n = (t, AdvResult.conflict)) ∧
    (∀ (s : Sys) (p1 p2 : Plan) (n1 n2 : Nat) (o : Order),
      findOrder s p1.target = some o → o.state = OState.received →
      p2.target = p1.target →
      p1.observed = OState.received → p2.observed = OState.received →
      (advanceCommit s p1 n1).2 = AdvResult.ok ∧
      advanceCommit (advanceCommit s p1 n1).1 p2 n2 =
        ((advanceCommit s p1 n1).1, AdvResult.conflict) ∧
      (∃ o2, findOrder (advanceCommit s p1 n1).1 p1.target = some o2 ∧
        o2.state = OState.preparing)) := by
  constructor
  · exact advanceCommit_conflict
  · intro s p1 p2 n1 n2 o ho hst htgt hobs1 hobs2
    have h1s : (advanceCommit s p1 n1).1 =
        (if p1.isHead then
          updateRest (updateOrder s p1.target { o with state := .preparing }) p1.restId
            (fun r => { r with lastPreparationStart := some n1 })
        else updateOrder s p1.target { o with state := .preparing }) := by
      simp [advanceCommit, hobs1, ho, hst]
    have h1r : (advanceCommit s p1 n1).2 = AdvResult.ok := by
      simp [advanceCommit, hobs1, ho, hst]
    have hfind : findOrder (advanceCommit s p1 n1).1 p1.target =
        some { o with state := .preparing } := by
      rw [h1s]
      by_cases hh : p1.isHead
      · rw [if_pos hh, findOrder_updateRest, findOrder_updateOrder, if_pos rfl, ho]
        rfl
      · rw [if_neg hh, findOrder_updateOrder, if_pos rfl, ho]
        rfl
    refine ⟨h1r, ?_, ⟨{ o with state := .preparing }, hfind, rfl⟩⟩
    have hfind2 : findOrder (advanceCommit s p1 n1).1 p2.target =
        some { o with state := .preparing } := by
      rw [htgt]
      exact hfind
    refine advanceCommit_conflict _ p2 n2 (Or.inl hobs2) ?_
    intro o2 ho2
    rw [hfind2] at ho2
    injection ho2 with ho2
    rw [← ho2, hobs2]
    intro hcon
    cases hcon

theorem advance_conflict_on_concurrent_change_witness :
    (advanceCommit sysTwo ⟨5, 0, OState.received, true⟩ 1000).2 = AdvResult.ok ∧
    advanceCommit (advanceCommit sysTwo ⟨5, 0, OState.received, true⟩ 1000).1
        ⟨5, 0, OState.received, true⟩ 2000 =
      ((advanceCommit sysTwo ⟨5, 0, OState.received, true⟩ 1000).1, AdvResult.conflict) ∧
    (∃ o2, findOrder (advanceCommit sysTwo ⟨5, 0, OState.received, true⟩ 1000).1 0 =
        some o2 ∧ o2.state = OState.preparing) :=
  advance_conflict_on_concurrent_change.2 sysTwo ⟨5, 0, OState.received, true⟩
    ⟨5, 0, OState.received, true⟩ 1000 2000 ⟨2, 5, 7, 1, 100, .received, 0⟩
    (by decide) rfl rfl rfl rfl

/-- The observable lastPreparationStart fields, keyed by restaurant id. -/
def lastPreps (s : Sys) : List (Nat × Option Nat) :=
  s.restaurants.map (fun r => (r.rid, r.lastPreparationStart))

theorem lastPreps_updateOrder (s : Sys) (t : Nat) (o : Order) :
    lastPreps (updateOrder s t o) = lastPreps s := rfl

theorem lastPreps_updateRest_keep (s : Sys) (rid : Nat) (f : Restaurant → Restaurant)
    (hf : ∀ r, (f r).rid = r.rid ∧ (f r).lastPreparationStart = r.lastPreparationStart) :
    lastPreps (updateRest s rid f) = lastPreps s := by
  unfold lastPreps
  rw [restaurants_updateRest, List.map_map]
  refine List.map_congr_left ?_
  intro r _
  by_cases h : r.rid = rid <;> simp [h, (hf r).1, (hf r).2]

/-- C10: across every advanceQueue path, lastPreparationStart is written,
to the current time and on the target restaurant only, exactly when the
received-to-preparing conditional update succeeds for a target that was
the captured queue head; every other path (observation failures, the
Conflict case, a non-head promotion, the preparing branch and terminal
states) leaves every lastPreparationStart unchanged. -/
theorem lastPreparationStart_set_iff_head_promotion :
    (∀ (s : Sys) (u : Nat) (oid? : Option Nat) (now : Nat) (res : AdvResult),
      advanceObserve s u oid? = Sum.inr res → advanceQueue s u oid? now = (s, res)) ∧
    (∀ (s : Sys) (p : Plan) (now : Nat) (o : Order), findOrder s p.target = some o →
      ((p.observed = OState.received ∧ o.state = OState.received ∧ p.isHead = true) →
        lastPreps (advanceCommit s p now).1 =
          s.restaurants.map (fun r => (r.rid, if r.rid = p.restId then some now
            else r.lastPreparationStart)) ∧
        (advanceCommit s p now).2 = AdvResult.ok) ∧
      (¬(p.observed = OState.received ∧ o.state = OState.received ∧ p.isHead = true) →
        lastPreps (advanceCommit s p now).1 = lastPreps s)) ∧
    (∀ (s : Sys) (p : Plan) (now : Nat), findOrder s p.target = none →
      lastPreps (advanceCommit s p now).1 = lastPreps s) := by
  refine ⟨advanceQueue_of_inr, ?_, ?_⟩
  · intro s p now o ho
    constructor
    · rintro ⟨h1, h2, h3⟩
      have heval : (advanceCommit s p now).1 =
          updateRest (updateOrder s p.target { o with state := .preparing }) p.restId
            (fun r => { r with lastPreparationStart := some now }) := by
        simp [advanceCommit, h1, ho, h2, h3]
      have hres : (advanceCommit s p now).2 = AdvResult.ok := by
        simp [advanceCommit, h1, ho, h2, h3]
      refine ⟨?_, hres⟩
      rw [heval]
      unfold lastPreps
      rw [restaurants_updateRest, restaurants_updateOrder, List.map_map]
      refine List.map_congr_left ?_
      intro r _
      by_cases h : r.rid = p.restId <;> simp [h]
    · intro hneg
      cases hobs : p.observed with
      | received =>
        by_cases h2 : o.state = OState.received
        · have h3 : p.isHead = false := by
            cases hh : p.isHead
            · rfl
            · exact absurd ⟨hobs, h2, hh⟩ hneg
          have heval : (advanceCommit s p now).1 =
              updateOrder s p.target { o with state := .preparing } := by
            simp [advanceCommit, hobs, ho, h2, h3]
          rw [heval, lastPreps_updateOrder]
        · have heval : (advanceCommit s p now).1 = s := by
            simp [advanceCommit, hobs, ho, h2]
          rw [heval]
      | preparing =>
        by_cases h2 : o.state = OState.preparing
        · have heval : (advanceCommit s p now).1 =
              updateRest (updateOrder s p.target { o with state := .ready }) p.restId
                (fun r => { r with queue := r.queue.filter (fun x => x ≠ p.target) }) := by
            simp [advanceCommit, hobs, ho, h2]
          rw [heval]
          exact (lastPreps_updateRest_keep _ p.restId
            (fun r => { r with queue := r.queue.filter (fun x => x ≠ p.target) })
            (fun r => ⟨rfl, rfl⟩)).trans (lastPreps_updateOrder s p.target _)
        · have heval : (advanceCommit s p now).1 = s := by
            simp [advanceCommit, hobs, ho, h2]
          rw [heval]
      | ready =>
        have heval : (advanceCommit s p now).1 = s := by
          simp [advanceCommit, hobs]
        rw [heval]
      | completed =>
        have heval : (advanceCommit s p now).1 = s := by
          simp [advanceCommit, hobs]
        rw [heval]
  · intro s p now ho
    cases hobs : p.observed with
    | received =>
      have heval : (advanceCommit s p now).1 = s := by
        simp [advanceCommit, hobs, ho]
      rw [heval]
    | preparing =>
      have heval : (advanceCommit s p now).1 = s := by
        simp [advanceCommit, hobs, ho]
      rw [heval]
    | ready =>
      have heval : (advanceCommit s p now).1 = s := by
        simp [advanceCommit, hobs]
      rw [heval]
    | completed =>
      have heval : (advanceCommit s p now).1 = s := by
        simp [advanceCommit, hobs]
      rw [heval]

theorem lastPreparationStart_set_iff_head_promotion_witness :
    lastPreps (advanceCommit sysTwo ⟨5, 0, OState.received, true⟩ 1000).1 =
      sysTwo.restaurants.map (fun r => (r.rid, if r.rid = 5 then some 1000
        else r.lastPreparationStart)) ∧
    (advanceCommit sysTwo ⟨5, 0, OState.received, true⟩ 1000).2 = AdvResult.ok :=
  (lastPreparationStart_set_iff_head_promotion.2.1 sysTwo ⟨5, 0, OState.received, true⟩
    1000 ⟨2, 5, 7, 1, 100, .received, 0⟩ (by decide)).1 ⟨rfl, rfl, rfl⟩

/-!
### Order creation: stored price and atomicity
-/

/-- baseSys after an order placed with client price 2598. -/
def sysPriceA : Sys :=
  ⟨[(0, ⟨2, 5, 7, 1, 2598, .received, 0⟩)], [⟨5, 1, [⟨7, 100, 10⟩], [0], none⟩], 1⟩

/-- baseSys after the same request except client price 4. -/
def sysPriceB : Sys :=
  ⟨[(0, ⟨2, 5, 7, 1, 4, .received, 0⟩)], [⟨5, 1, [⟨7, 100, 10⟩], [0], none⟩], 1⟩

/-- C4 evaluation: two newOrder requests identical except for the price
field of the body store different prices — exactly the client-supplied
values — although the menu entry for the ordered dish prices it at 100.
The stored price is therefore not server-computed from the menu. -/
theorem newOrder_stores_client_supplied_price :
    placeOrder baseSys 2 5 7 1 2598 0 = some sysPriceA ∧
    placeOrder baseSys 2 5 7 1 4 0 = some sysPriceB ∧
    findOrder sysPriceA 0 = some ⟨2, 5, 7, 1, 2598, .received, 0⟩ ∧
    findOrder sysPriceB 0 = some ⟨2, 5, 7, 1, 4, .received, 0⟩ ∧
    (2598 : Int) ≠ 4 ∧
    menuFind (⟨5, 1, [⟨7, 100, 10⟩], [], none⟩ : Restaurant).menu 7 =
      some ⟨7, 100, 10⟩ := by
  refine ⟨by decide, by decide, by decide, by decide, by decide, by decide⟩

/-- baseSys after an order placed for the nonexistent restaurant 99. -/
def sysDangling : Sys :=
  ⟨[(0, ⟨2, 99, 7, 1, 2598, .received, 0⟩)], [⟨5, 1, [⟨7, 100, 10⟩], [], none⟩], 1⟩

/-- C9 evaluation: with the transactional mode on, a newOrder request
naming a restaurant id absent from the store commits successfully: the
Order record is created in state received, yet the queue push matched no
restaurant document, so the order id is in no queue — a created order
missing from the queue. -/
theorem newOrder_missing_restaurant_creates_dangling_order :
    placeOrder baseSys 2 99 7 1 2598 0 = some sysDangling ∧
    findOrder sysDangling 0 = some ⟨2, 99, 7, 1, 2598, .received, 0⟩ ∧
    findRest sysDangling 99 = none ∧
    (∀ r ∈ sysDangling.restaurants, 0 ∉ r.queue) := by
  refine ⟨by decide, by decide, by decide, by decide⟩

/-!
### Wait-time estimation
-/

theorem findIdx?_none_of_not_mem (l : List Nat) (t : Nat) (h : t ∉ l) :
    l.findIdx? (fun oid => oid = t) = none := by
  induction l with
  | nil => rfl
  | cons a as ih =>
    have ha : a ≠ t := fun he => h (he ▸ List.mem_cons_self a as)
    have has : t ∉ as := fun hm => h (List.mem_cons_of_mem a hm)
    simp [List.findIdx?_cons, ha, ih has]

/-- C5: the exposed wait-time estimate answers 0 minutes for any stored
order whose id is not in the queue of its restaurant. -/
theorem waitEstimation_zero_when_not_in_queue (s : Sys) (target now : Nat) (o : Order)
    (r : Restaurant) (h1 : findOrder s target = some o)
    (h2 : findRest s o.restaurant = some r) (h3 : target ∉ r.queue) :
    waitEstimationTime s target now = some 0 := by
  have hidx : r.queue.findIdx? (fun oid => oid = target) = none :=
    findIdx?_none_of_not_mem _ _ h3
  simp [waitEstimationTime, h1, h2, hidx]

/-- A state with a ready order 1 outside the queue and a received order 2
queued. -/
def sysReadyOut : Sys :=
  ⟨[(1, ⟨8, 1, 4, 1, 100, .ready, 0⟩), (2, ⟨8, 1, 4, 1, 100, .received, 0⟩)],
   [⟨1, 9, [⟨4, 100, 10⟩], [2], some 0⟩], 3⟩

theorem waitEstimation_zero_when_not_in_queue_witness :
    waitEstimationTime sysReadyOut 1 900000 = some 0 :=
  waitEstimation_zero_when_not_in_queue sysReadyOut 1 900000
    ⟨8, 1, 4, 1, 100, .ready, 0⟩ ⟨1, 9, [⟨4, 100, 10⟩], [2], some 0⟩
    (by decide) (by decide) (by decide)

/-- A state on which the two estimators disagree: queue [1, 2], the head
order 1 preparing since time 0 with preparation total 10 minutes, order
2 queued behind it, both dishes on the menu, and 15 minutes elapsed. -/
def estDiverge : Sys :=
  ⟨[(1, ⟨8, 1, 4, 1, 100, .preparing, 0⟩), (2, ⟨8, 1, 4, 1, 100, .received, 0⟩)],
   [⟨1, 9, [⟨4, 100, 10⟩], [1, 2], some 0⟩], 3⟩

/-- C2 counterexample: on estDiverge at 15 elapsed minutes the service
estimator clamps the overdue head contribution per entry, max(10-15,0)
plus 10 gives 10 minutes, while the controller estimator clamps the
whole slice total, max(20-15,0) gives 5 minutes: the two observed
implementations are not extensionally equal. -/
theorem estimators_disagree :
    calculateWaitTime estDiverge 2 900000 = some 10 ∧
    waitEstimationTime estDiverge 2 900000 = some 5 ∧
    (10 : ℚ) ≠ 5 := by
  refine ⟨?_, ?_, by norm_num⟩
  · simp [calculateWaitTime, estDiverge, findOrder, findRest, lookupOrder, populateQueue,
      serviceLoop, menuFind, elapsedMinutes, List.find?, List.filterMap]
    norm_num
  · simp [waitEstimationTime, estDiverge, findOrder, findRest, lookupOrder, aggregateTotal,
      prepRowsSum, menuPrepSum, elapsedMinutes, List.find?, List.findIdx?, List.filter]
    norm_num

theorem elapsedMinutes_mono (t1 t2 lp : Nat) (h : t1 ≤ t2) :
    elapsedMinutes t1 lp ≤ elapsedMinutes t2 lp := by
  unfold elapsedMinutes
  have hc : (t1 : ℚ) ≤ t2 := by exact_mod_cast h
  gcongr

theorem menuPrepSum_nonneg (menu : List MenuItem) (d : Nat) : 0 ≤ menuPrepSum menu d := by
  refine List.sum_nonneg ?_
  intro x hx
  rcases List.mem_map.mp hx with ⟨m, _, hm⟩
  rw [← hm]
  positivity

theorem prepRowsSum_nonneg (rs : List Restaurant) (restId d : Nat) :
    0 ≤ prepRowsSum rs restId d := by
  refine List.sum_nonneg ?_
  intro x hx
  rcases List.mem_map.mp hx with ⟨r, _, hr⟩
  rw [← hr]
  exact menuPrepSum_nonneg _ _

theorem aggregateTotal_nonneg (s : Sys) (ahead : List Nat) : 0 ≤ aggregateTotal s ahead := by
  refine List.sum_nonneg ?_
  intro x hx
  rcases List.mem_map.mp hx with ⟨p, _, hp⟩
  rw [← hp]
  exact mul_nonneg (by positivity) (prepRowsSum_nonneg _ _ _)

theorem serviceLoop_nil (menu : List MenuItem) (lp? : Option Nat) (now target idx : Nat) :
    serviceLoop menu lp? now target [] idx = 0 := rfl

theorem serviceLoop_cons_skip (menu : List MenuItem) (lp? : Option Nat)
    (now target oid idx : Nat) (o : Order) (rest : List (Nat × Order))
    (hm : menuFind menu o.dish = none) :
    serviceLoop menu lp? now target ((oid, o) :: rest) idx =
      serviceLoop menu lp? now target rest idx := by
  rw [serviceLoop, hm]

theorem serviceLoop_cons_nolp (menu : List MenuItem) (now target oid idx : Nat)
    (o : Order) (m : MenuItem) (rest : List (Nat × Order))
    (hm : menuFind menu o.dish = some m) :
    serviceLoop menu none now target ((oid, o) :: rest) idx =
      (m.preparationTime : ℚ) * (o.amount : ℚ) +
        (if oid = target then 0 else serviceLoop menu none now target rest (idx + 1)) := by
  rw [serviceLoop, hm]

theorem serviceLoop_cons_lp (menu : List MenuItem) (now target oid idx lp : Nat)
    (o : Order) (m : MenuItem) (rest : List (Nat × Order))
    (hm : menuFind menu o.dish = some m) :
    serviceLoop menu (some lp) now target ((oid, o) :: rest) idx =
      (if idx = 0 ∧ o.state = OState.preparing then
        max ((m.preparationTime : ℚ) * (o.amount : ℚ) - elapsedMinutes now lp) 0
       else (m.preparationTime : ℚ) * (o.amount : ℚ)) +
        (if oid = target then 0 else serviceLoop menu (some lp) now target rest (idx + 1)) := by
  rw [serviceLoop, hm]

theorem serviceLoop_nonneg (menu : List MenuItem) (lp? : Option Nat) (now target : Nat)
    (l : List (Nat × Order)) (idx : Nat) : 0 ≤ serviceLoop menu lp? now target l idx := by
  induction l generalizing idx with
  | nil => rw [serviceLoop_nil]
  | cons p rest ih =>
    obtain ⟨oid, o⟩ := p
    have htail : (0:ℚ) ≤ if oid = target then 0
        else serviceLoop menu lp? now target rest (idx + 1) := by
      by_cases ht : oid = target
      · rw [if_pos ht]
      · rw [if_neg ht]
        exact ih (idx + 1)
    cases hm : menuFind menu o.dish with
    | none =>
      rw [serviceLoop_cons_skip _ _ _ _ _ _ _ _ hm]
      exact ih idx
    | some m =>
      cases lp? with
      | none =>
        rw [serviceLoop_cons_nolp _ _ _ _ _ _ _ _ hm]
        exact add_nonneg (by positivity) htail
      | some lp =>
        rw [serviceLoop_cons_lp _ _ _ _ _ _ _ _ _ hm]
        refine add_nonneg ?_ htail
        by_cases hc : idx = 0 ∧ o.state = OState.preparing
        · rw [if_pos hc]
          exact le_max_right _ _
        · rw [if_neg hc]
          positivity

theorem serviceLoop_anti (menu : List MenuItem) (lp? : Option Nat) (target : Nat)
    (l : List (Nat × Order)) (idx t1 t2 : Nat) (h : t1 ≤ t2) :
    serviceLoop menu lp? t2 target l idx ≤ serviceLoop menu lp? t1 target l idx := by
  induction l generalizing idx with
  | nil => rw [serviceLoop_nil, serviceLoop_nil]
  | cons p rest ih =>
    obtain ⟨oid, o⟩ := p
    have htail : (if oid = target then (0:ℚ)
          else serviceLoop menu lp? t2 target rest (idx + 1)) ≤
        (if oid = target then 0 else serviceLoop menu lp? t1 target rest (idx + 1)) := by
      by_cases ht : oid = target
      · rw [if_pos ht, if_pos ht]
      · rw [if_neg ht, if_neg ht]
        exact ih (idx + 1)
    cases hm : menuFind menu o.dish with
    | none =>
      rw [serviceLoop_cons_skip _ _ _ _ _ _ _ _ hm, serviceLoop_cons_skip _ _ _ _ _ _ _ _ hm]
      exact ih idx
    | some m =>
      cases lp? with
      | none =>
        rw [serviceLoop_cons_nolp _ _ _ _ _ _ _ _ hm, serviceLoop_cons_nolp _ _ _ _ _ _ _ _ hm]
        exact add_le_add le_rfl htail
      | some lp =>
        rw [serviceLoop_cons_lp _ _ _ _ _ _ _ _ _ hm, serviceLoop_cons_lp _ _ _ _ _ _ _ _ _ hm]
        refine add_le_add ?_ htail
        by_cases hc : idx = 0 ∧ o.state = OState.preparing
        · rw [if_pos hc, if_pos hc]
          exact max_le_max (sub_le_sub_left (elapsedMinutes_mono t1 t2 lp h) _) le_rfl
        · rw [if_neg hc, if_neg hc]

/-- C8: with the store, queue, menu, order states and
lastPreparationStart fixed, both estimators are non-increasing in the
current time and always non-negative. -/
theorem estimate_nonincreasing_and_nonneg (s : Sys) (target t1 t2 : Nat) (h : t1 ≤ t2) :
    (∀ v1 v2 : ℚ, waitEstimationTime s target t1 = some v1 →
      waitEstimationTime s target t2 = some v2 → v2 ≤ v1 ∧ 0 ≤ v2) ∧
    (∀ v1 v2 : ℚ, calculateWaitTime s target t1 = some v1 →
      calculateWaitTime s target t2 = some v2 → v2 ≤ v1 ∧ 0 ≤ v2) := by
  constructor
  · intro v1 v2 hv1 hv2
    cases ho : findOrder s target with
    | none => simp [waitEstimationTime, ho] at hv1
    | some o =>
      cases hr : findRest s o.restaurant with
      | none => simp [waitEstimationTime, ho, hr] at hv1
      | some r =>
        cases hidx : r.queue.findIdx? (fun oid => oid = target) with
        | none =>
          simp [waitEstimationTime, ho, hr, hidx] at hv1 hv2
          rw [← hv1, ← hv2]
          exact ⟨le_rfl, le_rfl⟩
        | some pos =>
          cases hh : r.queue.head? with
          | none =>
            simp [waitEstimationTime, ho, hr, hidx, hh] at hv1 hv2
            rw [← hv1, ← hv2]
            exact ⟨le_rfl, aggregateTotal_nonneg _ _⟩
          | some fid =>
            cases hfo : findOrder s fid with
            | none =>
              simp [waitEstimationTime, ho, hr, hidx, hh, hfo] at hv1 hv2
              rw [← hv1, ← hv2]
              exact ⟨le_rfl, aggregateTotal_nonneg _ _⟩
            | some fo =>
              cases hlp : r.lastPreparationStart with
              | none =>
                simp [waitEstimationTime, ho, hr, hidx, hh, hfo, hlp] at hv1 hv2
                rw [← hv1, ← hv2]
                exact ⟨le_rfl, aggregateTotal_nonneg _ _⟩
              | some lp =>
                by_cases hps : fo.state = OState.preparing
                · simp [waitEstimationTime, ho, hr, hidx, hh, hfo, hlp, hps] at hv1 hv2
                  rw [← hv1, ← hv2]
                  refine ⟨max_le_max (sub_le_sub_left (elapsedMinutes_mono t1 t2 lp h) _)
                    le_rfl, le_max_right _ _⟩
                · simp [waitEstimationTime, ho, hr, hidx, hh, hfo, hlp, hps] at hv1 hv2
                  rw [← hv1, ← hv2]
                  exact ⟨le_rfl, aggregateTotal_nonneg _ _⟩
  · intro v1 v2 hv1 hv2
    cases ho : findOrder s target with
    | none => simp [calculateWaitTime, ho] at hv1
    | some o =>
      cases hr : findRest s o.restaurant with
      | none => simp [calculateWaitTime, ho, hr] at hv1
      | some r =>
        simp [calculateWaitTime, ho, hr] at hv1 hv2
        rw [← hv1, ← hv2]
        exact ⟨serviceLoop_anti _ _ _ _ _ _ _ h, serviceLoop_nonneg _ _ _ _ _ _⟩

theorem estimate_nonincreasing_and_nonneg_witness :
    (5 : ℚ) ≤ 20 ∧ (0 : ℚ) ≤ 5 := by
  refine (estimate_nonincreasing_and_nonneg estDiverge 2 0 900000 (by decide)).1 20 5 ?_ ?_
  · simp [waitEstimationTime, estDiverge, findOrder, findRest, lookupOrder, aggregateTotal,
      prepRowsSum, menuPrepSum, elapsedMinutes, List.find?, List.findIdx?, List.filter]
    norm_num
  · simp [waitEstimationTime, estDiverge, findOrder, findRest, lookupOrder, aggregateTotal,
      prepRowsSum, menuPrepSum, elapsedMinutes, List.find?, List.findIdx?, List.filter]
    norm_num

theorem menuPrepSum_eq_of_find (menu : List MenuItem) (d : Nat) (m : MenuItem)
    (hnd : (menu.map (·.dish)).Nodup) (h : menuFind menu d = some m) :
    menuPrepSum menu d = (m.preparationTime : ℚ) := by
  induction menu with
  | nil => simp [menuFind] at h
  | cons a as ih =>
    rw [List.map_cons, List.nodup_cons] at hnd
    by_cases had : a.dish = d
    · have hm : a = m := by
        simpa [menuFind, List.find?_cons, had] using h
      have hfil : as.filter (fun x => x.dish = d) = [] := by
        refine List.filter_eq_nil_iff.mpr ?_
        intro x hx
        simp only [decide_eq_true_eq]
        intro hxd
        exact hnd.1 (List.mem_map.mpr ⟨x, hx, by rw [hxd, had]⟩)
      rw [← hm]
      simp [menuPrepSum, List.filter_cons, had, hfil]
    · have h2 : menuFind as d = some m := by
        simpa [menuFind, List.find?_cons, had] using h
      rw [show menuPrepSum (a :: as) d = menuPrepSum as d by
        simp [menuPrepSum, List.filter_cons, had]]
      exact ih hnd.2 h2

/-- C6: for a queue [O1, O2] with the head O1 preparing since lp, both
dishes resolved on the menu and the elapsed time not exceeding the head
preparation total, both estimators price O2 at the head remainder plus
the O2 preparation total. -/
theorem estimate_second_order_behind_preparing_head
    (i1 i2 rid ow lp k now : Nat) (menu : List MenuItem)
    (o1 o2 : Order) (m1 m2 : MenuItem)
    (hne : i1 ≠ i2)
    (ho1r : o1.restaurant = rid) (ho2r : o2.restaurant = rid)
    (ho1s : o1.state = OState.preparing)
    (hm1 : menuFind menu o1.dish = some m1) (hm2 : menuFind menu o2.dish = some m2)
    (hmenu : (menu.map (·.dish)).Nodup)
    (hel : elapsedMinutes now lp ≤ (m1.preparationTime : ℚ) * (o1.amount : ℚ)) :
    waitEstimationTime ⟨[(i1, o1), (i2, o2)], [⟨rid, ow, menu, [i1, i2], some lp⟩], k⟩
        i2 now =
      some ((m1.preparationTime : ℚ) * (o1.amount : ℚ) - elapsedMinutes now lp +
        (m2.preparationTime : ℚ) * (o2.amount : ℚ)) ∧
    calculateWaitTime ⟨[(i1, o1), (i2, o2)], [⟨rid, ow, menu, [i1, i2], some lp⟩], k⟩
        i2 now =
      some ((m1.preparationTime : ℚ) * (o1.amount : ℚ) - elapsedMinutes now lp +
        (m2.preparationTime : ℚ) * (o2.amount : ℚ)) := by
  have hp1 := menuPrepSum_eq_of_find menu o1.dish m1 hmenu hm1
  have hp2 := menuPrepSum_eq_of_find menu o2.dish m2 hmenu hm2
  have hnn : (0:ℚ) ≤ (m2.preparationTime : ℚ) * (o2.amount : ℚ) := by positivity
  have hmax2 : max ((m1.preparationTime : ℚ) * (o1.amount : ℚ) -
      elapsedMinutes now lp) 0 =
      (m1.preparationTime : ℚ) * (o1.amount : ℚ) - elapsedMinutes now lp := by
    refine max_eq_left ?_
    linarith
  constructor
  · simp [waitEstimationTime, findOrder, findRest, lookupOrder_cons, hne, ho1r, ho2r,
      List.find?, List.findIdx?_cons, aggregateTotal, List.filter, prepRowsSum,
      hp1, hp2, ho1s]
    have key : (0:ℚ) ≤ (o1.amount : ℚ) * (m1.preparationTime : ℚ) +
        (o2.amount : ℚ) * (m2.preparationTime : ℚ) - elapsedMinutes now lp := by
      nlinarith [hel, hnn]
    rw [max_eq_left key]
    ring
  · simp [calculateWaitTime, findOrder, findRest, lookupOrder_cons, hne, ho1r, ho2r,
      List.find?, populateQueue, List.filterMap, lookupOrder_cons,
      serviceLoop_cons_lp _ _ _ _ _ _ _ _ _ hm1, serviceLoop_cons_lp _ _ _ _ _ _ _ _ _ hm2,
      ho1s, hne, hmax2]

theorem estimate_second_order_behind_preparing_head_witness :
    waitEstimationTime ⟨[(1, ⟨8, 1, 4, 2, 100, .preparing, 0⟩),
        (2, ⟨8, 1, 4, 1, 100, .received, 0⟩)],
        [⟨1, 9, [⟨4, 100, 10⟩], [1, 2], some 0⟩], 3⟩ 2 180000 = some 27 ∧
    calculateWaitTime ⟨[(1, ⟨8, 1, 4, 2, 100, .preparing, 0⟩),
        (2, ⟨8, 1, 4, 1, 100, .received, 0⟩)],
        [⟨1, 9, [⟨4, 100, 10⟩], [1, 2], some 0⟩], 3⟩ 2 180000 = some 27 := by
  obtain ⟨h1, h2⟩ := estimate_second_order_behind_preparing_head 1 2 1 9 0 3 180000
    [⟨4, 100, 10⟩] ⟨8, 1, 4, 2, 100, .preparing, 0⟩ ⟨8, 1, 4, 1, 100, .received, 0⟩
    ⟨4, 100, 10⟩ ⟨4, 100, 10⟩ (by decide) rfl rfl rfl (by decide) (by decide) (by decide)
    (by norm_num [elapsedMinutes])
  constructor
  · rw [h1]
    norm_num [elapsedMinutes]
  · rw [h2]
    norm_num [elapsedMinutes]

/-!
### Equivalence of the two estimators on well-formed states
-/

/-- The prefix of a list through the first occurrence of t (the whole
list when t does not occur): the entries the service loop visits. -/
def takeThrough (t : Nat) : List Nat → List Nat
  | [] => []
  | a :: as => if a = t then [a] else a :: takeThrough t as

theorem findIdx?_take_eq_takeThrough (t : Nat) (l : List Nat) (h : t ∈ l) :
    ∃ pos, l.findIdx? (fun x => x = t) = some pos ∧
      l.take (pos + 1) = takeThrough t l := by
  induction l with
  | nil => cases h
  | cons a as ih =>
    by_cases hat : a = t
    · refine ⟨0, ?_, ?_⟩
      · simp [List.findIdx?_cons, hat]
      · simp [takeThrough, hat]
    · have hmem : t ∈ as := by
        rcases List.mem_cons.mp h with h1 | h1
        · exact absurd h1.symm hat
        · exact h1
      obtain ⟨pos, hfi, hta⟩ := ih hmem
      refine ⟨pos + 1, ?_, ?_⟩
      · rw [List.findIdx?_cons, if_neg (by simpa using hat), List.findIdx?_succ, hfi]
        rfl
      · rw [List.take_succ_cons, hta, takeThrough, if_neg hat]

theorem filter_key_none (store : List (Nat × Order)) (id : Nat)
    (h : lookupOrder store id = none) :
    store.filter (fun p => p.1 = id) = [] := by
  induction store with
  | nil => rfl
  | cons p ps ih =>
    rw [lookupOrder_cons] at h
    by_cases hp : p.1 = id
    · rw [if_pos hp] at h
      cases h
    · rw [if_neg hp] at h
      rw [List.filter_cons, if_neg (by simpa using hp)]
      exact ih h

theorem filter_key_single (store : List (Nat × Order)) (id : Nat) (q : Order)
    (hnd : (store.map (·.1)).Nodup) (h : lookupOrder store id = some q) :
    store.filter (fun p => p.1 = id) = [(id, q)] := by
  induction store with
  | nil => simp [lookupOrder_nil] at h
  | cons p ps ih =>
    rw [List.map_cons, List.nodup_cons] at hnd
    rw [lookupOrder_cons] at h
    by_cases hp : p.1 = id
    · rw [if_pos hp] at h
      injection h with h
      have hnone : lookupOrder ps id = none := by
        cases hl : lookupOrder ps id with
        | none => rfl
        | some q2 =>
          exfalso
          have : id ∈ ps.map (·.1) := by
            unfold lookupOrder at hl
            cases hf : ps.find? (fun p => p.1 = id) with
            | none => rw [hf] at hl; cases hl
            | some pr =>
              have := List.find?_some hf
              have hm := List.mem_of_find?_eq_some hf
              refine List.mem_map.mpr ⟨pr, hm, ?_⟩
              simpa using this
          exact hnd.1 (hp ▸ this)
      rw [List.filter_cons, if_pos (by simpa using hp), filter_key_none ps id hnone]
      have : p = (id, q) := by
        obtain ⟨p1, p2⟩ := p
        simp only at hp h
        rw [hp, h]
      rw [this]
    · rw [if_neg hp] at h
      rw [List.filter_cons, if_neg (by simpa using hp)]
      exact ih hnd.2 h

theorem sum_filter_or (l : List (Nat × Order)) (p q : Nat × Order → Bool)
    (g : Nat × Order → ℚ) (hdis : ∀ x, ¬(p x = true ∧ q x = true)) :
    ((l.filter (fun x => p x || q x)).map g).sum =
      ((l.filter p).map g).sum + ((l.filter q).map g).sum := by
  induction l with
  | nil => simp
  | cons a as ih =>
    rw [List.filter_cons, List.filter_cons, List.filter_cons]
    cases hp : p a with
    | true =>
      have hq : q a = false := by
        cases hq : q a with
        | true => exact absurd ⟨hp, hq⟩ (hdis a)
        | false => rfl
      simp only [hp, hq, Bool.true_or, if_true, if_false, Bool.false_eq_true,
        List.map_cons, List.sum_cons]
      rw [ih]
      ring
    | false =>
      cases hq : q a with
      | true =>
        simp only [hp, hq, Bool.false_or, if_true, if_false, Bool.false_eq_true,
          List.map_cons, List.sum_cons]
        rw [ih]
        ring
      | false =>
        simp only [hp, hq, Bool.false_or, if_false, Bool.false_eq_true]
        exact ih

theorem aggregateTotal_eq_sum (s : Sys) (ids : List Nat) (hids : ids.Nodup)
    (hknd : (s.orders.map (·.1)).Nodup) :
    aggregateTotal s ids = (ids.map (fun id =>
      match lookupOrder s.orders id with
      | some q => (q.amount : ℚ) * prepRowsSum s.restaurants q.restaurant q.dish
      | none => 0)).sum := by
  induction ids with
  | nil =>
    unfold aggregateTotal
    rw [show s.orders.filter (fun p => p.1 ∈ ([] : List Nat)) = [] from
      List.filter_eq_nil_iff.mpr (by intro a _; simp)]
    simp
  | cons id rest ih =>
    rw [List.nodup_cons] at hids
    unfold aggregateTotal
    have hcong : s.orders.filter (fun p => p.1 ∈ id :: rest) =
        s.orders.filter (fun p => (p.1 = id : Bool) || (p.1 ∈ rest : Bool)) := by
      refine List.filter_congr ?_
      intro a _
      simp [List.mem_cons]
    rw [hcong, sum_filter_or _ _ _ _ ?hdis]
    case hdis =>
      intro x hx
      rcases hx with ⟨h1, h2⟩
      simp only [decide_eq_true_eq] at h1 h2
      exact hids.1 (h1 ▸ h2)
    rw [List.map_cons, List.sum_cons]
    have htail := ih hids.2
    unfold aggregateTotal at htail
    rw [htail]
    congr 1
    cases hl : lookupOrder s.orders id with
    | none =>
      rw [filter_key_none s.orders id hl]
      simp
    | some q =>
      rw [filter_key_single s.orders id q hknd hl]
      simp

theorem findRest_facts (s : Sys) (x : Nat) (r : Restaurant)
    (h : findRest s x = some r) : r.rid = x ∧ r ∈ s.restaurants := by
  unfold findRest at h
  have h1 := List.find?_some h
  have h2 := List.mem_of_find?_eq_some h
  exact ⟨by simpa using h1, h2⟩

theorem prepRowsSum_eq_menuPrepSum (s : Sys) (r : Restaurant) (d : Nat)
    (hrnd : (s.restaurants.map (·.rid)).Nodup) (hm : r ∈ s.restaurants) :
    prepRowsSum s.restaurants r.rid d = menuPrepSum r.menu d := by
  unfold prepRowsSum
  have hfil : s.restaurants.filter (fun x => x.rid = r.rid) = [r] := by
    have hsub : ∀ (l : List Restaurant), (l.map (·.rid)).Nodup → r ∈ l →
        l.filter (fun x => x.rid = r.rid) = [r] := by
      intro l
      induction l with
      | nil => intro _ hmem; cases hmem
      | cons a as ih =>
        intro hnd hmem
        rw [List.map_cons, List.nodup_cons] at hnd
        rcases List.mem_cons.mp hmem with h1 | h1
        · have har : a.rid = r.rid := by rw [h1]
          rw [List.filter_cons, if_pos (by simpa using har)]
          have hfe : as.filter (fun x => x.rid = r.rid) = [] := by
            refine List.filter_eq_nil_iff.mpr ?_
            intro x hx
            simp only [decide_eq_true_eq]
            intro hxe
            exact hnd.1 (List.mem_map.mpr ⟨x, hx, by rw [hxe, ← har]⟩)
          rw [hfe, h1]
        · have hne : a.rid ≠ r.rid := by
            intro he
            exact hnd.1 (List.mem_map.mpr ⟨r, h1, he.symm⟩)
          rw [List.filter_cons, if_neg (by simpa using hne)]
          exact ih hnd.2 h1
    exact hsub s.restaurants hrnd hm
  rw [hfil]
  simp

/-- The preparation contribution of one queue entry: amount times the
preparation time of the first menu entry for its dish, zero when the
entry does not resolve or the dish is off the menu. -/
def entryContrib (store : List (Nat × Order)) (menu : List MenuItem) (id : Nat) : ℚ :=
  match lookupOrder store id with
  | some q =>
    match menuFind menu q.dish with
    | some m => (m.preparationTime : ℚ) * (q.amount : ℚ)
    | none => 0
  | none => 0

theorem entryContrib_nonneg (store : List (Nat × Order)) (menu : List MenuItem)
    (id : Nat) : 0 ≤ entryContrib store menu id := by
  unfold entryContrib
  cases hl : lookupOrder store id with
  | none =>
    show (0:ℚ) ≤ 0
    exact le_rfl
  | some q =>
    show (0:ℚ) ≤ (match menuFind menu q.dish with
      | some m => (m.preparationTime : ℚ) * (q.amount : ℚ)
      | none => 0)
    cases hm : menuFind menu q.dish with
    | none =>
      show (0:ℚ) ≤ 0
      exact le_rfl
    | some m =>
      show (0:ℚ) ≤ (m.preparationTime : ℚ) * (q.amount : ℚ)
      positivity

theorem takeThrough_sum_nonneg (store : List (Nat × Order)) (menu : List MenuItem)
    (t : Nat) (l : List Nat) :
    0 ≤ ((takeThrough t l).map (entryContrib store menu)).sum := by
  refine List.sum_nonneg ?_
  intro x hx
  rcases List.mem_map.mp hx with ⟨id, _, hid⟩
  rw [← hid]
  exact entryContrib_nonneg store menu id

theorem serviceLoop_tail_eq (store : List (Nat × Order)) (menu : List MenuItem)
    (lp? : Option Nat) (now target : Nat) (q : List Nat) (idx : Nat) (hidx : idx ≠ 0)
    (hres : ∀ id ∈ q, ∃ o, lookupOrder store id = some o ∧
      (menuFind menu o.dish).isSome) :
    serviceLoop menu lp? now target (populateQueue store q) idx =
      ((takeThrough target q).map (entryContrib store menu)).sum := by
  induction q generalizing idx with
  | nil => simp [populateQueue, takeThrough, serviceLoop_nil]
  | cons id rest ih =>
    obtain ⟨o, hl, hmso⟩ := hres id (List.mem_cons_self id rest)
    obtain ⟨m, hm⟩ := Option.isSome_iff_exists.mp hmso
    have hpop : populateQueue store (id :: rest) = (id, o) :: populateQueue store rest := by
      simp [populateQueue, List.filterMap_cons, hl]
    rw [hpop]
    have hcontrib : entryContrib store menu id =
        (m.preparationTime : ℚ) * (o.amount : ℚ) := by
      unfold entryContrib
      rw [hl]
      show (match menuFind menu o.dish with
        | some mm => (mm.preparationTime : ℚ) * (o.amount : ℚ)
        | none => 0) = (m.preparationTime : ℚ) * (o.amount : ℚ)
      rw [hm]
    have htailres : ∀ id2 ∈ rest, ∃ o2, lookupOrder store id2 = some o2 ∧
        (menuFind menu o2.dish).isSome :=
      fun id2 h2 => hres id2 (List.mem_cons_of_mem id h2)
    have hrec := ih (idx + 1) (Nat.succ_ne_zero idx) htailres
    by_cases hit : id = target
    · have hQ : takeThrough target (id :: rest) = [id] := by
        simp [takeThrough, hit]
      cases lp? with
      | none =>
        rw [serviceLoop_cons_nolp _ _ _ _ _ _ _ _ hm, if_pos hit, hQ]
        simp [hcontrib]
      | some lp =>
        rw [serviceLoop_cons_lp _ _ _ _ _ _ _ _ _ hm,
          if_neg (fun hc => hidx hc.1), if_pos hit, hQ]
        simp [hcontrib]
    · have hQ : takeThrough target (id :: rest) = id :: takeThrough target rest := by
        simp [takeThrough, hit]
      cases lp? with
      | none =>
        rw [serviceLoop_cons_nolp _ _ _ _ _ _ _ _ hm, if_neg hit, hQ, List.map_cons,
          List.sum_cons, hrec, hcontrib]
      | some lp =>
        rw [serviceLoop_cons_lp _ _ _ _ _ _ _ _ _ hm,
          if_neg (fun hc => hidx hc.1), if_neg hit, hQ, List.map_cons,
          List.sum_cons, hrec, hcontrib]

theorem entryContrib_eq (store : List (Nat × Order)) (menu : List MenuItem)
    (id : Nat) (o : Order) (m : MenuItem) (hl : lookupOrder store id = some o)
    (hm : menuFind menu o.dish = some m) :
    entryContrib store menu id = (m.preparationTime : ℚ) * (o.amount : ℚ) := by
  unfold entryContrib
  rw [hl]
  show (match menuFind menu o.dish with
    | some mm => (mm.preparationTime : ℚ) * (o.amount : ℚ)
    | none => 0) = (m.preparationTime : ℚ) * (o.amount : ℚ)
  rw [hm]

/-- C2 amended: on well-formed data — queue entries resolving to orders
of this restaurant, no duplicate queue entries, store keys, restaurant
ids or menu dishes, every queued dish on the menu, and the elapsed
preparation time of a preparing head not exceeding that head's own
preparation total — the two estimator implementations agree. -/
theorem estimators_agree_on_wellformed (s : Sys) (target now : Nat) (o : Order)
    (r : Restaurant)
    (ho : findOrder s target = some o)
    (hr : findRest s o.restaurant = some r)
    (hmem : target ∈ r.queue)
    (hqnd : r.queue.Nodup)
    (hknd : (s.orders.map (·.1)).Nodup)
    (hrnd : (s.restaurants.map (·.rid)).Nodup)
    (hmnd : (r.menu.map (·.dish)).Nodup)
    (hres : ∀ id ∈ r.queue, ∃ q, lookupOrder s.orders id = some q ∧
      q.restaurant = r.rid ∧ (menuFind r.menu q.dish).isSome)
    (hel : ∀ h oh lp mh, r.queue.head? = some h → lookupOrder s.orders h = some oh →
      oh.state = OState.preparing → r.lastPreparationStart = some lp →
      menuFind r.menu oh.dish = some mh →
      elapsedMinutes now lp ≤ (mh.preparationTime : ℚ) * (oh.amount : ℚ)) :
    calculateWaitTime s target now = waitEstimationTime s target now := by
  have hrmem := (findRest_facts s o.restaurant r hr).2
  obtain ⟨pos, hfi, htake⟩ := findIdx?_take_eq_takeThrough target r.queue hmem
  have hndT : (takeThrough target r.queue).Nodup := by
    rw [← htake]
    exact (List.take_sublist _ _).nodup hqnd
  have htotal : aggregateTotal s (r.queue.take (pos + 1)) =
      ((takeThrough target r.queue).map (entryContrib s.orders r.menu)).sum := by
    rw [htake, aggregateTotal_eq_sum s _ hndT hknd]
    congr 1
    refine List.map_congr_left ?_
    intro id hid
    have hidq : id ∈ r.queue := by
      rw [← htake] at hid
      exact List.take_subset _ _ hid
    obtain ⟨q, hlq, hqr, hqm⟩ := hres id hidq
    obtain ⟨m, hm⟩ := Option.isSome_iff_exists.mp hqm
    rw [entryContrib_eq s.orders r.menu id q m hlq hm, hlq]
    show (q.amount : ℚ) * prepRowsSum s.restaurants q.restaurant q.dish =
      (m.preparationTime : ℚ) * (q.amount : ℚ)
    rw [hqr, prepRowsSum_eq_menuPrepSum s r q.dish hrnd hrmem,
      menuPrepSum_eq_of_find r.menu q.dish m hmnd hm]
    ring
  cases hq : r.queue with
  | nil =>
    rw [hq] at hmem
    cases hmem
  | cons h rest =>
    obtain ⟨oh, hloh, hohr, hohm⟩ := hres h (by rw [hq]; exact List.mem_cons_self h rest)
    obtain ⟨mh, hmh⟩ := Option.isSome_iff_exists.mp hohm
    have hpop : populateQueue s.orders r.queue = (h, oh) :: populateQueue s.orders rest := by
      rw [hq]
      simp [populateQueue, List.filterMap_cons, hloh]
    have hfoh : findOrder s h = some oh := hloh
    have hhd : r.queue.head? = some h := by rw [hq]; rfl
    have htailres : ∀ id ∈ rest, ∃ o2, lookupOrder s.orders id = some o2 ∧
        (menuFind r.menu o2.dish).isSome := by
      intro id hid
      obtain ⟨q, h1, _, h3⟩ := hres id (by rw [hq]; exact List.mem_cons_of_mem h hid)
      exact ⟨q, h1, h3⟩
    have hbase := entryContrib_eq s.orders r.menu h oh mh hloh hmh
    have hsplit : ((takeThrough target r.queue).map (entryContrib s.orders r.menu)).sum =
        (mh.preparationTime : ℚ) * (oh.amount : ℚ) +
          (if h = target then 0
           else ((takeThrough target rest).map (entryContrib s.orders r.menu)).sum) := by
      rw [hq]
      by_cases hit : h = target
      · rw [show takeThrough target (h :: rest) = [h] by simp [takeThrough, hit],
          if_pos hit]
        simp [hbase]
      · rw [show takeThrough target (h :: rest) = h :: takeThrough target rest by
            simp [takeThrough, hit],
          if_neg hit, List.map_cons, List.sum_cons, hbase]
    have hrest0 : (0:ℚ) ≤ (if h = target then 0
        else ((takeThrough target rest).map (entryContrib s.orders r.menu)).sum) := by
      by_cases hit : h = target
      · rw [if_pos hit]
      · rw [if_neg hit]
        exact takeThrough_sum_nonneg _ _ _ _
    unfold calculateWaitTime waitEstimationTime
    simp only [ho, hr, hfi]
    show _ = some (match r.queue.head? with
      | none => aggregateTotal s (r.queue.take (pos + 1))
      | some fid =>
        match findOrder s fid, r.lastPreparationStart with
        | some fo, some lp =>
          if fo.state = OState.preparing then
            max (aggregateTotal s (r.queue.take (pos + 1)) - elapsedMinutes now lp) 0
          else aggregateTotal s (r.queue.take (pos + 1))
        | _, _ => aggregateTotal s (r.queue.take (pos + 1)))
    rw [hhd, hpop]
    cases hlp : r.lastPreparationStart with
    | none =>
      rw [serviceLoop_cons_nolp _ _ _ _ _ _ _ _ hmh]
      show some _ = some (match findOrder s h, (none : Option Nat) with
        | some fo, some lp =>
          if fo.state = OState.preparing then
            max (aggregateTotal s (r.queue.take (pos + 1)) - elapsedMinutes now lp) 0
          else aggregateTotal s (r.queue.take (pos + 1))
        | _, _ => aggregateTotal s (r.queue.take (pos + 1)))
      rw [hfoh]
      show some _ = some (aggregateTotal s (r.queue.take (pos + 1)))
      rw [htotal, hsplit]
      congr 1
      by_cases hit : h = target
      · rw [if_pos hit, if_pos hit]
      · rw [if_neg hit, if_neg hit,
          serviceLoop_tail_eq s.orders r.menu none now target rest 1 one_ne_zero htailres]
    | some lp =>
      rw [serviceLoop_cons_lp _ _ _ _ _ _ _ _ _ hmh]
      show some _ = some (match findOrder s h, (some lp : Option Nat) with
        | some fo, some lp =>
          if fo.state = OState.preparing then
            max (aggregateTotal s (r.queue.take (pos + 1)) - elapsedMinutes now lp) 0
          else aggregateTotal s (r.queue.take (pos + 1))
        | _, _ => aggregateTotal s (r.queue.take (pos + 1)))
      rw [hfoh]
      show some _ = some (if oh.state = OState.preparing then
          max (aggregateTotal s (r.queue.take (pos + 1)) - elapsedMinutes now lp) 0
        else aggregateTotal s (r.queue.take (pos + 1)))
      by_cases hps : oh.state = OState.preparing
      · rw [if_pos hps, if_pos ⟨rfl, hps⟩]
        have he : elapsedMinutes now lp ≤ (mh.preparationTime : ℚ) * (oh.amount : ℚ) :=
          hel h oh lp mh hhd hloh hps hlp hmh
        rw [htotal, hsplit]
        rw [max_eq_left (by linarith), max_eq_left (by linarith)]
        congr 1
        by_cases hit : h = target
        · rw [if_pos hit, if_pos hit]
          ring
        · rw [if_neg hit, if_neg hit,
            serviceLoop_tail_eq s.orders r.menu (some lp) now target rest 1 one_ne_zero
              htailres]
          ring
      · rw [if_neg hps, if_neg (fun hc => hps hc.2)]
        rw [htotal, hsplit]
        congr 1
        by_cases hit : h = target
        · rw [if_pos hit, if_pos hit]
        · rw [if_neg hit, if_neg hit,
            serviceLoop_tail_eq s.orders r.menu (some lp) now target rest 1 one_ne_zero
              htailres]

theorem estimators_agree_on_wellformed_witness :
    calculateWaitTime estDiverge 2 300000 = waitEstimationTime estDiverge 2 300000 := by
  refine estimators_agree_on_wellformed estDiverge 2 300000
    ⟨8, 1, 4, 1, 100, .received, 0⟩ ⟨1, 9, [⟨4, 100, 10⟩], [1, 2], some 0⟩
    (by decide) (by decide) (by decide) (by decide) (by decide) (by decide) (by decide)
    ?_ ?_
  · intro id hid
    have hid2 : id = 1 ∨ id = 2 := by simpa using hid
    rcases hid2 with rfl | rfl
    · exact ⟨⟨8, 1, 4, 1, 100, .preparing, 0⟩, by decide, by decide, by decide⟩
    · exact ⟨⟨8, 1, 4, 1, 100, .received, 0⟩, by decide, by decide, by decide⟩
  · intro h oh lp mh hh hlo hst hlp hm
    have hh1 : (1 : Nat) = h := Option.some.inj hh
    subst hh1
    have hoh : (⟨8, 1, 4, 1, 100, .preparing, 0⟩ : Order) = oh := Option.some.inj hlo
    subst hoh
    have hlp0 : (0 : Nat) = lp := Option.some.inj hlp
    subst hlp0
    have hmh : (⟨4, 100, 10⟩ : MenuItem) = mh := Option.some.inj hm
    subst hmh
    show elapsedMinutes 300000 0 ≤ (10 : ℚ) * 1
    norm_num [elapsedMinutes]
